import Mathlib

/-!
# Verification of the jjk concurrency-and-caching core

This file gives a shallow embedding in Lean 4 of the core of the `jjk`
repository (`src/utils.ts` and `src/fileSystemProvider.ts`) and proves or
refutes the frozen claims about it.

Embedding conventions:
* Machine strings, paths and revisions are Lean `String`s; byte buffers are
  `List Nat`; millisecond clock readings are `Int` (mirroring JS number
  subtraction in `now - timestamp`).
* The two platform constants `isWindows`/`isMacintosh` of `utils.ts` are
  folded into a single parameter `ci : Bool` ("case-insensitive platform",
  i.e. `isWindows || isMacintosh`), and the platform path separator `sep`
  is a `Char` parameter.
* Promise-based stateful code (`Lock.acquire`, `createThrottledAsyncFn`)
  is embedded as a deterministic step function over an explicit state,
  driven by an external event list: call arrivals are events, and the
  settlement of an in-flight asynchronous task is an external event
  carrying the task's outcome, so theorems quantified over event lists
  cover every interleaving of completions.  Promise continuations
  (`.then`) are defunctionalized into the step function; `setTimeout`
  callbacks are kept in an explicit macrotask queue fired by a separate
  event, preserving the source's tick structure.
-/

namespace Jjk

/-! ## Path utilities (`src/utils.ts`, `normalizePath` / `isDescendant` / `pathEquals`)

A JS string is embedded as its character sequence `List Char`, so that
`toLowerCase`, `startsWith` and character indexing are ordinary list
operations. -/

/-- A file-system path (a JS string, as its character sequence). -/
abbrev PathStr := List Char

/-- `normalizePath` from `src/utils.ts` lines 71-79: on Windows and macOS
(`ci = true`, modeling `isWindows || isMacintosh`) paths are lowercased
(`path.toLowerCase()`), otherwise returned unchanged. -/
def normalizePath (ci : Bool) (path : PathStr) : PathStr :=
  if ci then path.map Char.toLower else path

/-- `isDescendant` from `src/utils.ts` lines 81-91.  `parent === descendant`
returns true immediately (exact, case-sensitive equality); otherwise a
trailing separator is appended to `parent` when its last character is not
`sep` (`parent.charAt(parent.length - 1) !== sep`; an empty parent's
`charAt` yields the empty string, which is also `!== sep`), and the
normalized descendant is tested for starting with the normalized parent. -/
def isDescendant (ci : Bool) (sep : Char) (parent descendant : PathStr) : Bool :=
  if parent = descendant then
    true
  else
    let parent' := if parent.getLast? = some sep then parent else parent ++ [sep]
    List.isPrefixOf (normalizePath ci parent') (normalizePath ci descendant)

/-- `pathEquals` from `src/utils.ts` lines 93-95. -/
def pathEquals (ci : Bool) (a b : PathStr) : Bool :=
  normalizePath ci a = normalizePath ci b

/-! ## Shared promise/outcome model -/

/-- The settlement outcome of a JS promise/async function: fulfilled with a
value or rejected with a reason.  Values and reasons are abstracted to
`Nat`. -/
inductive Outcome where
  | ok (v : Nat)
  | err (r : Nat)
deriving DecidableEq, Repr

/-- The observable state of one promise. -/
inductive PState where
  | pending
  | settled (o : Outcome)
deriving DecidableEq, Repr

/-- Settle promise `pid` with outcome `o` (a JS resolve/reject: a no-op when
the promise is already settled). -/
def settleP (f : Nat → PState) (pid : Nat) (o : Outcome) : Nat → PState :=
  fun p =>
    if p = pid then
      match f pid with
      | .pending => .settled o
      | st => st
    else f p

/-- Settle every promise in `ws` with outcome `o` (the body of
`resolveOrRejectAllWaiters`). -/
def settleAll (f : Nat → PState) (ws : List Nat) (o : Outcome) : Nat → PState :=
  ws.foldl (fun g p => settleP g p o) f

/-! ## File system provider (`src/fileSystemProvider.ts`) -/

/-- `CacheRow` from `src/fileSystemProvider.ts` lines 25-28 together with the
map key used for it.  `uriKey` is `uri.toString()` (the canonical string form
used as the map key and the event identity), `fsPath` is `uri.fsPath`, and
`timestamp` is the last-fetch clock reading in milliseconds. -/
structure CacheRow where
  uriKey : String
  fsPath : PathStr
  timestamp : Int
deriving DecidableEq, Repr

/-- `THREE_MINUTES` from `src/fileSystemProvider.ts` line 30 (milliseconds). -/
def THREE_MINUTES : Int := 1000 * 60 * 3

/-- `FIVE_MINUTES` from `src/fileSystemProvider.ts` line 31 (milliseconds). -/
def FIVE_MINUTES : Int := 1000 * 60 * 5

/-- An open text document as seen by `workspace.textDocuments`: its URI
scheme and its `fsPath`. -/
structure Doc where
  scheme : String
  fsPath : PathStr
deriving DecidableEq, Repr

/-- The `isOpen` test inside `cleanup` (lines 90-92): some open text document
with scheme `"file"` whose path equals the row's path under `pathEquals`. -/
def isOpenDoc (ci : Bool) (docs : List Doc) (path : PathStr) : Bool :=
  docs.any (fun d => d.scheme = "file" && pathEquals ci d.fsPath path)

/-- `JJFileSystemProvider.cleanup` (lines 84-102): rebuild the cache keeping
exactly the rows that are open ("pinned") or younger than `THREE_MINUTES`;
the evicted rows are dropped with no event fired (the `else` branch is only
the `TODO: should fire delete events?` comment).  The second component is
the list of events emitted by a cleanup pass, which the source never
populates. -/
def cleanup (ci : Bool) (docs : List Doc) (now : Int) (rows : List CacheRow) :
    List CacheRow × List CacheRow :=
  (rows.filter (fun row =>
      isOpenDoc ci docs row.fsPath || decide (now - row.timestamp < THREE_MINUTES)),
   [])

/-- `FileChangeType.Changed`-style event carried by `onDidChangeFile`. -/
inductive FcType where
  | changed
  | created
  | deleted
deriving DecidableEq, Repr

/-- One element of the `FileChangeEvent[]` batch. -/
structure FcEvent where
  type : FcType
  uriKey : String
deriving DecidableEq, Repr

/-- The mutable provider state relevant to `_fireChangeEvents`:
`cache`, `changedRepositoryRoots` and `mtime`. -/
structure FspState where
  cache : List CacheRow
  changedRoots : List PathStr
  mtime : Int
deriving DecidableEq, Repr

/-- The test of the inner loop of `_fireChangeEvents` (lines 67-74): the row
matches when some pending dirty root `root` satisfies
`isDescendant(root, uri.fsPath)`; the `break` makes each row contribute at
most one event, i.e. the inner loop is an existence test. -/
def rowMatches (ci : Bool) (sep : Char) (roots : List PathStr) (row : CacheRow) : Bool :=
  roots.any (fun root => isDescendant ci sep root row.fsPath)

/-- The body of `JJFileSystemProvider._fireChangeEvents` (lines 56-82) after
the focus wait: scan the live cache rows, emit one `Changed` event per row
that descends from a pending dirty root, batch them into a single
`_onDidChangeFile.fire(events)` call (`some events`, fired only when
`events.length > 0`), advance `mtime` to `now` only when something was
fired, and clear `changedRepositoryRoots` unconditionally. -/
def fireChangeEventsBody (ci : Bool) (sep : Char) (now : Int) (s : FspState) :
    FspState × Option (List FcEvent) :=
  let events : List FcEvent :=
    s.cache.filterMap (fun row =>
      if rowMatches ci sep s.changedRoots row then
        some { type := .changed, uriKey := row.uriKey }
      else none)
  if events.length > 0 then
    ({ cache := s.cache, changedRoots := [], mtime := now }, some events)
  else
    ({ cache := s.cache, changedRoots := [], mtime := s.mtime }, none)

/-! ## Virtual content resolver (`JJFileSystemProvider.readFile`, lines 125-191) -/

/-- Byte buffers (`Uint8Array` / `Buffer`). -/
abbrev Bytes := List Nat

/-- A thrown JS value: `fileNotFound` is `FileSystemError.FileNotFound()`;
`error msg` is any other `Error` instance with message `msg`; `nonError` is
a thrown non-`Error` value (for which `e instanceof Error` is false). -/
inductive JSErr where
  | fileNotFound
  | error (msg : String)
  | nonError (code : Nat)
deriving DecidableEq, Repr

/-- `hay.includes(needle)` on JS strings: `needle` occurs as a contiguous
piece of `hay`. -/
def includesSub (hay needle : String) : Bool :=
  hay.toList.tails.any (fun t => List.isPrefixOf needle.toList t)

/-- The catch-clause test `e instanceof Error && e.message.includes("No such
path")` (lines 170 and 185). -/
def isNoSuchPathErr : JSErr → Bool
  | .error msg => includesSub msg "No such path"
  | _ => false

/-- The three-outcome result of `repository.getDiffOriginal`: literal
content, the `"NOT_MODIFIED"` sentinel, or the `"ADDED"` sentinel. -/
inductive DiffOriginalResult where
  | content (b : Bytes)
  | notModified
  | added
deriving DecidableEq, Repr

/-- The repository accessor consumed by `readFile`: `getDiffOriginal(rev,
fsPath)` and `readFile(rev, fsPath)`, each fallible. -/
structure Repo where
  getDiffOriginal : String → String → Except JSErr DiffOriginalResult
  readFile : String → String → Except JSErr Bytes

/-- The query parameters carried by the resource URI (`getParams`): either a
plain revision `rev` or a diff-baseline revision `diffOriginalRev`. -/
inductive UriParams where
  | plain (rev : String)
  | diffOriginal (diffOriginalRev : String)
deriving DecidableEq, Repr

/-- The shared try/catch around `repository.readFile(rev, fsPath)` (lines
163-174 and 181-189): a failure that is an `Error` whose message contains
`"No such path"` becomes `FileSystemError.FileNotFound()`; any other
failure is rethrown unchanged. -/
def readAtMapped (repo : Repo) (rev fsPath : String) : Except JSErr Bytes :=
  match repo.readFile rev fsPath with
  | .ok data => .ok data
  | .error e => if isNoSuchPathErr e then .error .fileNotFound else .error e

/-- `JJFileSystemProvider.readFile` (lines 125-191), content resolution
only (the `cache.set` bookkeeping at lines 152-155 touches no data that the
returned bytes depend on and is modeled separately by the cache model
above).  When no repository owns the URI the function throws
`FileSystemError.FileNotFound()` without consulting any accessor; with a
`diffOriginalRev` parameter the three-outcome baseline contract applies,
with the `NOT_MODIFIED` sentinel falling back to the plain read of the same
revision; with a plain `rev` parameter the mapped read applies directly. -/
def readFileModel (repo? : Option Repo) (params : UriParams) (fsPath : String) :
    Except JSErr Bytes :=
  match repo? with
  | none => .error .fileNotFound
  | some repo =>
    match params with
    | .diffOriginal rev =>
      match repo.getDiffOriginal rev fsPath with
      | .error e => .error e
      | .ok .notModified => readAtMapped repo rev fsPath
      | .ok .added => .ok []
      | .ok (.content b) => .ok b
    | .plain rev => readAtMapped repo rev fsPath

/-! ## `createThrottledAsyncFn` (`src/utils.ts`, lines 114-207)

The wrapped async function `fn` is abstract: starting a run allocates a
fresh promise (the run's promise) and logs the execution with the arguments
it was started with; the run's settlement is an external event.  Arguments
are abstracted to `Nat`.  The `.then` continuations installed on the run
promise (lines 154-200) and the `.then(resolver, rejector)` chaining of a
recursive run into the previously shared queued promise (line 172) are
executed when the corresponding run promise settles. -/

/-- The `State` enum of `createThrottledAsyncFn` (lines 117-121). -/
inductive TState where
  | idle
  | running
  | queued
deriving DecidableEq, Repr

/-- The captured state of one `createThrottledAsyncFn` closure, plus a
promise registry and observation logs.  `links` records the pending
`.then(resolver, rejector)` chains of line 172: `(rp, q)` means that when
run promise `rp` settles, promise `q` settles with the same outcome.
`execs` logs each started execution as `(run promise id, args)`, in start
order; `calls` logs each external call as `(args, promise id returned to
the caller)`, in arrival order. -/
structure ThrSt where
  state : TState
  queuedArgs : Option Nat
  queuedPid : Option Nat
  runPid : Option Nat
  links : List (Nat × Nat)
  promises : Nat → PState
  execs : List (Nat × Nat)
  calls : List (Nat × Nat)
  nextPid : Nat

/-- External events driving the throttler: a call of the throttled function
with some arguments, or the settlement of the in-flight run of `fn`. -/
inductive ThrEv where
  | call (args : Nat)
  | complete (o : Outcome)

/-- The state at construction time (lines 122-129). -/
def thrInit : ThrSt :=
  { state := .idle, queuedArgs := none, queuedPid := none, runPid := none,
    links := [], promises := fun _ => .pending, execs := [], calls := [],
    nextPid := 0 }

/-- One step of the throttler.

`call a` is the body of `throttledFn` (lines 131-204): always store the
latest args (line 132); while `Running`, move to `Queued` and create the
shared queued promise (lines 137-143); while `Queued`, return the existing
shared promise (line 145); while `Idle`, move to `Running` and start
`fn(...args)`, returning that exact run's promise (lines 148-203).

`complete o` settles the in-flight run promise; this fires the
caller-visible settlement of the run promise, the pending line-172 chain
into a previously shared queued promise if any, and the internal
continuation of lines 154-200: on fulfillment with a queued run, reset the
queue state and recursively re-enter `throttledFn` with the latest stored
args (starting exactly one new run whose promise is chained to the shared
queued promise); on rejection with a queued run, reject the shared queued
promise with the current run's reason and return to `Idle` without starting
a new run; with nothing queued, return to `Idle`. -/
def thrStep (s : ThrSt) : ThrEv → ThrSt
  | .call a =>
    let s := { s with queuedArgs := some a }
    match s.state with
    | .running =>
        let q := s.nextPid
        { s with state := .queued, queuedPid := some q, nextPid := q + 1,
                 calls := s.calls ++ [(a, q)] }
    | .queued =>
        { s with calls := s.calls ++ [(a, s.queuedPid.getD 0)] }
    | .idle =>
        let rp := s.nextPid
        { s with state := .running, runPid := some rp, nextPid := rp + 1,
                 execs := s.execs ++ [(rp, a)], calls := s.calls ++ [(a, rp)] }
  | .complete o =>
    match s.runPid with
    | none => s
    | some rp =>
      let linked := s.links.filterMap (fun l => if l.1 = rp then some l.2 else none)
      let s1 : ThrSt :=
        { s with promises := settleAll (settleP s.promises rp o) linked o,
                 links := s.links.filter (fun l => decide (l.1 ≠ rp)),
                 runPid := none }
      match o with
      | .ok _ =>
        match s1.state with
        | .queued =>
          let q := s1.queuedPid.getD 0
          let nextArgs := s1.queuedArgs.getD 0
          let rp2 := s1.nextPid
          { s1 with state := .running, queuedPid := none,
                    queuedArgs := some nextArgs, runPid := some rp2,
                    nextPid := rp2 + 1,
                    execs := s1.execs ++ [(rp2, nextArgs)],
                    links := s1.links ++ [(rp2, q)] }
        | _ => { s1 with state := .idle }
      | .err _ =>
        match s1.state with
        | .queued =>
          let q := s1.queuedPid.getD 0
          { s1 with state := .idle, queuedPid := none, queuedArgs := none,
                    promises := settleP s1.promises q o }
        | _ => { s1 with state := .idle }

/-- Run the throttler from construction over a list of external events. -/
def thrRun (es : List ThrEv) : ThrSt := es.foldl thrStep thrInit

/-- The promise id handed back by the most recent call (the last entry of
the `calls` log). -/
def thrLastCallPid (s : ThrSt) : Option Nat := s.calls.getLast?.map Prod.snd

/-! ## `Lock.acquire` (`src/utils.ts`, lines 240-362)

The chain `this.lockPromise = this.lockPromise.then(cb, cb)` appends `cb`
to a linear sequence of continuations: `cb` runs exactly when the previous
chain promise settles (with `cb` installed for both fulfillment and
rejection), and the reassigned `lockPromise` — which `acquire` returns to
the triggering caller — settles exactly as `cb`'s own run settles.  The
embedding therefore keeps the chain as the pair `running` (the entry whose
task is currently executing, started when its predecessor settled) and
`pending` (appended entries whose turn has not come).  A task body `fn` is
abstract: its settlement is an external `complete` event carrying the
outcome.  `setTimeout(resolveOrRejectAllWaiters, 0)` pushes a macrotask
onto `timers`; a `fireTimer` event runs the oldest one.  The microtask
between a settlement and the start of the next chain entry carries no
observable effect of the `Lock`, so it is collapsed into the `complete`
step. -/

/-- One chain entry of the `Lock`: the task's id `tid`, its optional
`deduplicationKey`, and the chain promise `pid` returned to the caller who
appended it. -/
structure Entry where
  tid : Nat
  key : Option String
  pid : Nat
deriving DecidableEq, Repr

/-- The observation log of one `acquire` call: the promise id handed back,
the `deduplicationKey` passed, whether the call appended a chain entry
(`trig = true`) or joined an open registration as a waiter (`trig =
false`), and `joined`, the task id of the execution whose outcome the
returned promise reports (for a triggering call its own task; for a waiter
the task of the registration it joined). -/
structure Arrival where
  pid : Nat
  key : Option String
  trig : Bool
  joined : Nat
deriving DecidableEq, Repr

/-- External events driving the `Lock`: an `acquire` call (keyed or not),
the settlement of the currently executing task with some outcome, and the
firing of the oldest queued `setTimeout` callback. -/
inductive LEv where
  | acquire (key : Option String)
  | complete (o : Outcome)
  | fireTimer
deriving DecidableEq, Repr

/-- The state of the `Lock` plus the promise registry and observation
logs.  `regs` is `deduplicationKeyToWaiters` (insertion-ordered, like a JS
`Map`); `timers` is the queue of scheduled `resolveOrRejectAllWaiters`
callbacks, each holding the waiter promise ids it will settle and the
captured outcome; `starts` logs task ids in execution start order;
`completions` logs `(tid, outcome)` at task settlement. -/
structure LockSt where
  running : List Entry
  pending : List Entry
  regs : List (String × List Nat)
  timers : List (List Nat × Outcome)
  promises : Nat → PState
  starts : List Nat
  arrivals : List Arrival
  completions : List (Nat × Outcome)
  nextTid : Nat
  nextPid : Nat

/-- `deduplicationKeyToWaiters.get(k)` (first entry with key `k`). -/
def lookupReg (regs : List (String × List Nat)) (k : String) : Option (List Nat) :=
  (regs.find? (fun e => e.1 = k)).map Prod.snd

/-- `deduplicationKeyToWaiters.set(k, ws)` for a key already present:
replace its value in place. -/
def setReg (regs : List (String × List Nat)) (k : String) (ws : List Nat) :
    List (String × List Nat) :=
  regs.map (fun e => if e.1 = k then (k, ws) else e)

/-- `deduplicationKeyToWaiters.delete(k)`. -/
def eraseReg (regs : List (String × List Nat)) (k : String) :
    List (String × List Nat) :=
  regs.filter (fun e => decide (e.1 ≠ k))

/-- The chain entries of the state: the one in execution followed by the
queued ones, in chain order. -/
def entries (s : LockSt) : List Entry := s.running ++ s.pending

/-- The chain entry (if any) registered for key `k`. -/
def joinEntry (s : LockSt) (k : String) : Option Entry :=
  (entries s).find? (fun e => e.key = some k)

/-- The `Lock` at construction: an already-settled `lockPromise` (an idle
chain) and an empty waiter map. -/
def lockInit : LockSt :=
  { running := [], pending := [], regs := [], timers := [],
    promises := fun _ => .pending, starts := [], arrivals := [],
    completions := [], nextTid := 0, nextPid := 0 }

/-- One step of the `Lock`.

`acquire none` (lines 271-274): append the task to the global chain; it
starts at once when the chain is idle (the current `lockPromise` already
settled), otherwise it waits its turn.

`acquire (some k)` with an open registration (lines 276-292): create a
fresh waiter promise, push it onto the registration's waiter list, and
return it — no execution is scheduled.  With no registration (lines
294-360): register `k` with an empty waiter list and append the wrapper
task (`promiseCallback`) to the chain exactly as in the unkeyed case.

`complete o`: the running task settles.  Its chain promise settles with
`o` (resolving the triggering caller), and — for a keyed wrapper (lines
314-356) — the waiter list current at settlement time is captured together
with the outcome into a `setTimeout(..., 0)` macrotask, the registration is
deleted, and the wrapper rethrows/returns the outcome.  Either way the next
queued chain entry, if any, begins executing (`.then(cb, cb)` installed
`cb` for fulfillment and rejection alike, so rejection does not stop the
chain).

`fireTimer`: the oldest scheduled `resolveOrRejectAllWaiters` runs,
settling every captured waiter promise with the captured outcome (lines
326-346). -/
def lockStep (s : LockSt) : LEv → LockSt
  | .acquire none =>
    let tid := s.nextTid
    let pid := s.nextPid
    let e : Entry := ⟨tid, none, pid⟩
    let s1 := { s with arrivals := s.arrivals ++ [Arrival.mk pid none true tid],
                       nextTid := tid + 1, nextPid := pid + 1 }
    if s1.running = [] ∧ s1.pending = [] then
      { s1 with running := [e], starts := s1.starts ++ [tid] }
    else
      { s1 with pending := s1.pending ++ [e] }
  | .acquire (some k) =>
    match lookupReg s.regs k with
    | some ws =>
      let pid := s.nextPid
      let jt := ((joinEntry s k).map Entry.tid).getD 0
      { s with regs := setReg s.regs k (ws ++ [pid]),
               arrivals := s.arrivals ++ [Arrival.mk pid (some k) false jt],
               nextPid := pid + 1 }
    | none =>
      let tid := s.nextTid
      let pid := s.nextPid
      let e : Entry := ⟨tid, some k, pid⟩
      let s1 := { s with regs := s.regs ++ [(k, [])],
                         arrivals := s.arrivals ++ [Arrival.mk pid (some k) true tid],
                         nextTid := tid + 1, nextPid := pid + 1 }
      if s1.running = [] ∧ s1.pending = [] then
        { s1 with running := [e], starts := s1.starts ++ [tid] }
      else
        { s1 with pending := s1.pending ++ [e] }
  | .complete o =>
    match s.running with
    | [] => s
    | e :: rest =>
      let s1 := { s with running := rest,
                         promises := settleP s.promises e.pid o,
                         completions := s.completions ++ [(e.tid, o)] }
      let s2 := match e.key with
        | none => s1
        | some k =>
          { s1 with timers := s1.timers ++ [((lookupReg s1.regs k).getD [], o)],
                    regs := eraseReg s1.regs k }
      match s2.running, s2.pending with
      | [], e2 :: ps =>
        { s2 with running := [e2], pending := ps, starts := s2.starts ++ [e2.tid] }
      | _, _ => s2
  | .fireTimer =>
    match s.timers with
    | [] => s
    | (ws, o) :: rest =>
      { s with timers := rest, promises := settleAll s.promises ws o }

/-- Run the `Lock` from construction over a list of external events. -/
def lockRun (es : List LEv) : LockSt := es.foldl lockStep lockInit

/-- Run the remaining scheduled `setTimeout` callbacks after a trace: the
event loop left alone drains the macrotask queue. -/
def lockDrain (es : List LEv) : LockSt :=
  lockRun (es ++ List.replicate (lockRun es).timers.length .fireTimer)

/-- The task ids of the triggering `acquire` calls in arrival order: the
calls that scheduled an execution of their own. -/
def trigJoined (s : LockSt) : List Nat :=
  s.arrivals.filterMap (fun a => if a.trig then some a.joined else none)

/-! ### Auxiliary views of the `Lock` state, used to state its invariants -/

/-- All waiter promise ids currently registered in the waiter map. -/
def regsPids (regs : List (String × List Nat)) : List Nat :=
  (regs.map Prod.snd).flatten

/-- All waiter promise ids captured in scheduled `setTimeout` callbacks. -/
def timersPids (timers : List (List Nat × Outcome)) : List Nat :=
  (timers.map Prod.fst).flatten

/-- Every unsettled promise id held somewhere in the `Lock`'s structures:
chain promises of queued/executing entries, registered waiters, and waiters
captured in scheduled timers. -/
def pidsOf (s : LockSt) : List Nat :=
  (entries s).map Entry.pid ++ regsPids s.regs ++ timersPids s.timers

/-- Find the chain entry with task id `t`. -/
def findTid (l : List Entry) (t : Nat) : Option Entry :=
  l.find? (fun e => e.tid = t)

/-- The live chain entry of the episode triggered by task `t`, if that
episode has not completed yet. -/
def epEntry (s : LockSt) (t : Nat) : Option Entry := findTid (entries s) t

/-- Where the promise of an `acquire` call currently lives.  While the
episode the call joined is live (its chain entry still queued or
executing), the call's promise is pending and recorded either as the chain
promise of that entry (a triggering call) or in the open registration's
waiter list (a coalesced call).  Once the episode's task has completed with
outcome `o`, the call's promise is either already settled with `o` or still
captured in a scheduled timer that will settle it with `o`. -/
def ArrivalTrack (s : LockSt) (a : Arrival) : Prop :=
  match epEntry s a.joined with
  | some e =>
      s.promises a.pid = .pending ∧
      (a.trig = true → a.pid = e.pid ∧ a.key = e.key) ∧
      (a.trig = false → ∃ k ws, e.key = some k ∧ a.key = some k ∧
          lookupReg s.regs k = some ws ∧ a.pid ∈ ws)
  | none =>
      ∃ o, (a.joined, o) ∈ s.completions ∧
        (s.promises a.pid = .settled o ∨ ∃ ws, (ws, o) ∈ s.timers ∧ a.pid ∈ ws)

/-- The reachability invariant of the `Lock` model.  Fields `runLen`,
`runEmpty` and `trigOrder` express the serialization discipline of the
promise chain; `regKeys` and `regKeysNodup` tie the waiter map to the
chain; the remaining fields are freshness/uniqueness bookkeeping plus the
per-call tracking `track`. -/
structure LockInv (s : LockSt) : Prop where
  runLen : s.running.length ≤ 1
  runEmpty : s.running = [] → s.pending = []
  trigOrder : trigJoined s = s.starts ++ s.pending.map Entry.tid
  regKeys : (entries s).filterMap Entry.key = s.regs.map Prod.fst
  regKeysNodup : (s.regs.map Prod.fst).Nodup
  entryPend : ∀ e ∈ entries s, s.promises e.pid = .pending
  regPend : ∀ k ws, lookupReg s.regs k = some ws → ∀ p ∈ ws, s.promises p = .pending
  timerPend : ∀ ws o, (ws, o) ∈ s.timers → ∀ p ∈ ws, s.promises p = .pending
  pidFresh : ∀ p ∈ pidsOf s, p < s.nextPid
  arrivalPidFresh : ∀ a ∈ s.arrivals, a.pid < s.nextPid
  promFresh : ∀ p, s.nextPid ≤ p → s.promises p = .pending
  pidsNodup : (pidsOf s).Nodup
  tidFresh : ∀ e ∈ entries s, e.tid < s.nextTid
  startsFresh : ∀ t ∈ s.starts, t < s.nextTid
  complFresh : ∀ c ∈ s.completions, c.1 < s.nextTid
  arrivalJoinedFresh : ∀ a ∈ s.arrivals, a.joined < s.nextTid
  startsNodup : s.starts.Nodup
  entryTidsNodup : ((entries s).map Entry.tid).Nodup
  pendingNotStarted : ∀ e ∈ s.pending, e.tid ∉ s.starts
  runningStarted : ∀ e ∈ s.running, e.tid ∈ s.starts
  entryNotCompleted : ∀ e ∈ entries s, ∀ c ∈ s.completions, e.tid ≠ c.1
  complNodup : (s.completions.map Prod.fst).Nodup
  complStarted : ∀ c ∈ s.completions, c.1 ∈ s.starts
  track : ∀ a ∈ s.arrivals, ArrivalTrack s a

/-! ## Theorems

### Promise-registry lemmas -/

theorem settleP_ne (f : Nat → PState) (pid : Nat) (o : Outcome) (p : Nat)
    (h : p ≠ pid) : settleP f pid o p = f p := by
  simp [settleP, h]

theorem settleP_eq (f : Nat → PState) (pid : Nat) (o : Outcome)
    (h : f pid = .pending) : settleP f pid o pid = .settled o := by
  simp [settleP, h]

theorem settleP_settled (f : Nat → PState) (pid : Nat) (o o' : Outcome) (p : Nat)
    (h : f p = .settled o') : settleP f pid o p = .settled o' := by
  by_cases hp : p = pid
  · subst hp; simp [settleP, h]
  · simp [settleP, hp, h]

theorem settleAll_nil (f : Nat → PState) (o : Outcome) : settleAll f [] o = f := rfl

theorem settleAll_cons (f : Nat → PState) (w : Nat) (ws : List Nat) (o : Outcome) :
    settleAll f (w :: ws) o = settleAll (settleP f w o) ws o := rfl

theorem settleAll_settled (ws : List Nat) (f : Nat → PState) (o o' : Outcome) (p : Nat)
    (h : f p = .settled o') : settleAll f ws o p = .settled o' := by
  induction ws generalizing f with
  | nil => simpa [settleAll_nil] using h
  | cons w ws ih =>
      rw [settleAll_cons]
      exact ih _ (settleP_settled f w o o' p h)

theorem settleAll_notMem (ws : List Nat) (f : Nat → PState) (o : Outcome) (p : Nat)
    (h : p ∉ ws) : settleAll f ws o p = f p := by
  induction ws generalizing f with
  | nil => simp [settleAll_nil]
  | cons w ws ih =>
      simp only [List.mem_cons, not_or] at h
      rw [settleAll_cons, ih (settleP f w o) h.2, settleP_ne f w o p h.1]

theorem settleAll_mem (ws : List Nat) (f : Nat → PState) (o : Outcome) (p : Nat)
    (hmem : p ∈ ws) (hpend : f p = .pending) : settleAll f ws o p = .settled o := by
  induction ws generalizing f with
  | nil => cases hmem
  | cons w ws ih =>
      rw [settleAll_cons]
      by_cases hw : p = w
      · subst hw
        exact settleAll_settled ws (settleP f p o) o o p (settleP_eq f p o hpend)
      · rcases List.mem_cons.mp hmem with h | h
        · exact absurd h hw
        · exact ih (settleP f w o) h (by rw [settleP_ne f w o p hw]; exact hpend)

/-! ### Waiter-map (`deduplicationKeyToWaiters`) lemmas -/

theorem lookupReg_cons_self (k : String) (w : List Nat) (regs : List (String × List Nat)) :
    lookupReg ((k, w) :: regs) k = some w := by
  simp [lookupReg]

theorem lookupReg_cons_ne (k0 : String) (w : List Nat) (regs : List (String × List Nat))
    (k : String) (h : k0 ≠ k) : lookupReg ((k0, w) :: regs) k = lookupReg regs k := by
  simp [lookupReg, List.find?_cons_of_neg, h]

theorem lookupReg_eq_none_iff (regs : List (String × List Nat)) (k : String) :
    lookupReg regs k = none ↔ k ∉ regs.map Prod.fst := by
  induction regs with
  | nil => simp [lookupReg]
  | cons e rest ih =>
    obtain ⟨k0, w0⟩ := e
    by_cases hk : k0 = k
    · subst hk
      rw [lookupReg_cons_self]
      simp
    · rw [lookupReg_cons_ne _ _ _ _ hk]
      simp only [List.map_cons, List.mem_cons]
      rw [ih]
      constructor
      · intro h hmem
        rcases hmem with h' | h'
        · exact hk h'.symm
        · exact h h'
      · intro h hmem
        exact h (Or.inr hmem)

theorem lookupReg_isSome_of_mem_keys (regs : List (String × List Nat)) (k : String)
    (h : k ∈ regs.map Prod.fst) : ∃ ws, lookupReg regs k = some ws := by
  rcases hl : lookupReg regs k with _ | ws
  · exact absurd ((lookupReg_eq_none_iff regs k).mp hl) (not_not_intro h)
  · exact ⟨ws, rfl⟩

theorem lookupReg_decomp (regs : List (String × List Nat)) (k : String) (ws : List Nat)
    (h : lookupReg regs k = some ws) :
    ∃ A B, regs = A ++ (k, ws) :: B ∧ ∀ e ∈ A, e.1 ≠ k := by
  induction regs with
  | nil => simp [lookupReg] at h
  | cons e rest ih =>
    obtain ⟨k0, w0⟩ := e
    by_cases hk : k0 = k
    · subst hk
      rw [lookupReg_cons_self] at h
      obtain rfl : w0 = ws := by injection h
      exact ⟨[], rest, by simp, by simp⟩
    · rw [lookupReg_cons_ne _ _ _ _ hk] at h
      obtain ⟨A, B, hr, hA⟩ := ih h
      refine ⟨(k0, w0) :: A, B, by simp [hr], ?_⟩
      intro x hx
      rcases List.mem_cons.mp hx with rfl | hx
      · exact hk
      · exact hA x hx

theorem setReg_append (l1 l2 : List (String × List Nat)) (k : String) (ws : List Nat) :
    setReg (l1 ++ l2) k ws = setReg l1 k ws ++ setReg l2 k ws := by
  simp [setReg]

theorem setReg_cons_self (w : List Nat) (regs : List (String × List Nat)) (k : String)
    (ws : List Nat) : setReg ((k, w) :: regs) k ws = (k, ws) :: setReg regs k ws := by
  simp [setReg]

theorem setReg_of_forall_ne (regs : List (String × List Nat)) (k : String) (ws : List Nat)
    (h : ∀ e ∈ regs, e.1 ≠ k) : setReg regs k ws = regs := by
  induction regs with
  | nil => rfl
  | cons e rest ih =>
    have he : e.1 ≠ k := h e (List.mem_cons_self e rest)
    simp only [setReg, List.map_cons, if_neg he]
    have := ih (fun x hx => h x (List.mem_cons_of_mem e hx))
    simpa [setReg] using this

theorem setReg_map_fst (regs : List (String × List Nat)) (k : String) (ws : List Nat) :
    (setReg regs k ws).map Prod.fst = regs.map Prod.fst := by
  induction regs with
  | nil => rfl
  | cons e rest ih =>
    by_cases he : e.1 = k
    · simp only [setReg, List.map_cons, if_pos he] at *
      simpa [he] using ih
    · simp only [setReg, List.map_cons, if_neg he] at *
      simpa using ih

theorem lookupReg_setReg_ne (regs : List (String × List Nat)) (k k' : String)
    (ws : List Nat) (h : k' ≠ k) : lookupReg (setReg regs k ws) k' = lookupReg regs k' := by
  induction regs with
  | nil => rfl
  | cons e rest ih =>
    obtain ⟨k0, w0⟩ := e
    by_cases hk : k0 = k
    · subst hk
      rw [setReg_cons_self, lookupReg_cons_ne _ _ _ _ (Ne.symm h),
        lookupReg_cons_ne _ _ _ _ (Ne.symm h)]
      exact ih
    · have : setReg ((k0, w0) :: rest) k ws = (k0, w0) :: setReg rest k ws := by
        simp [setReg, hk]
      rw [this]
      by_cases hk' : k0 = k'
      · subst hk'
        rw [lookupReg_cons_self, lookupReg_cons_self]
      · rw [lookupReg_cons_ne _ _ _ _ hk', lookupReg_cons_ne _ _ _ _ hk']
        exact ih

theorem lookupReg_append_no_k (A B : List (String × List Nat)) (k : String)
    (ws : List Nat) (hA : ∀ e ∈ A, e.1 ≠ k) :
    lookupReg (A ++ (k, ws) :: B) k = some ws := by
  induction A with
  | nil => exact lookupReg_cons_self _ _ _
  | cons e rest ih =>
    rw [List.cons_append, lookupReg_cons_ne _ _ _ _ (hA e (List.mem_cons_self e rest))]
    exact ih (fun x hx => hA x (List.mem_cons_of_mem e hx))

theorem lookupReg_setReg_self (regs : List (String × List Nat)) (k : String)
    (ws ws0 : List Nat) (h : lookupReg regs k = some ws0) :
    lookupReg (setReg regs k ws) k = some ws := by
  obtain ⟨A, B, rfl, hA⟩ := lookupReg_decomp regs k ws0 h
  rw [setReg_append, setReg_cons_self, setReg_of_forall_ne A k ws hA]
  exact lookupReg_append_no_k A _ k ws hA

theorem eraseReg_append (l1 l2 : List (String × List Nat)) (k : String) :
    eraseReg (l1 ++ l2) k = eraseReg l1 k ++ eraseReg l2 k := by
  simp [eraseReg]

theorem eraseReg_cons_self (w : List Nat) (regs : List (String × List Nat)) (k : String) :
    eraseReg ((k, w) :: regs) k = eraseReg regs k := by
  simp [eraseReg]

theorem eraseReg_of_forall_ne (regs : List (String × List Nat)) (k : String)
    (h : ∀ e ∈ regs, e.1 ≠ k) : eraseReg regs k = regs := by
  induction regs with
  | nil => rfl
  | cons e rest ih =>
    have he : e.1 ≠ k := h e (List.mem_cons_self e rest)
    simp only [eraseReg, List.filter_cons]
    simp [he]
    intro a b hab
    exact h (a, b) (List.mem_cons_of_mem e hab)

theorem lookupReg_eraseReg_self (regs : List (String × List Nat)) (k : String) :
    lookupReg (eraseReg regs k) k = none := by
  rw [lookupReg_eq_none_iff]
  intro hmem
  rcases List.mem_map.mp hmem with ⟨e, he, hk⟩
  rcases List.mem_filter.mp he with ⟨_, hne⟩
  rw [decide_eq_true_eq] at hne
  exact hne hk

theorem lookupReg_eraseReg_ne (regs : List (String × List Nat)) (k k' : String)
    (h : k' ≠ k) : lookupReg (eraseReg regs k) k' = lookupReg regs k' := by
  induction regs with
  | nil => rfl
  | cons e rest ih =>
    obtain ⟨k0, w0⟩ := e
    by_cases hk : k0 = k
    · subst hk
      rw [eraseReg_cons_self, lookupReg_cons_ne _ _ _ _ (Ne.symm h)]
      exact ih
    · have : eraseReg ((k0, w0) :: rest) k = (k0, w0) :: eraseReg rest k := by
        simp [eraseReg, hk]
      rw [this]
      by_cases hk' : k0 = k'
      · subst hk'
        rw [lookupReg_cons_self, lookupReg_cons_self]
      · rw [lookupReg_cons_ne _ _ _ _ hk', lookupReg_cons_ne _ _ _ _ hk']
        exact ih

theorem eraseReg_map_fst (regs : List (String × List Nat)) (k : String) :
    (eraseReg regs k).map Prod.fst = (regs.map Prod.fst).filter (fun x => decide (x ≠ k)) := by
  induction regs with
  | nil => rfl
  | cons e rest ih =>
    by_cases he : e.1 = k
    · simpa [eraseReg, List.filter_cons, he] using ih
    · simpa [eraseReg, List.filter_cons, he] using ih

/-! ### Chain-entry lookup lemmas -/

theorem findTid_append (l1 l2 : List Entry) (t : Nat) :
    findTid (l1 ++ l2) t = (findTid l1 t).or (findTid l2 t) := by
  simp [findTid]

theorem findTid_eq_none (l : List Entry) (t : Nat) :
    findTid l t = none ↔ ∀ e ∈ l, e.tid ≠ t := by
  simp [findTid, List.find?_eq_none]

theorem findTid_cons_self (e : Entry) (l : List Entry) : findTid (e :: l) e.tid = some e := by
  simp [findTid]

theorem findTid_cons_ne (e : Entry) (l : List Entry) (t : Nat) (h : e.tid ≠ t) :
    findTid (e :: l) t = findTid l t := by
  simp [findTid, List.find?_cons_of_neg, h]

theorem findTid_mem (l : List Entry) (t : Nat) (e : Entry) (h : findTid l t = some e) :
    e ∈ l ∧ e.tid = t := by
  refine ⟨List.mem_of_find?_eq_some h, ?_⟩
  have := List.find?_some h
  simpa using this

/-! ### Invariant preservation of the `Lock` model -/

theorem nodup_snoc {α : Type} (l : List α) (x : α) (hl : l.Nodup) (hx : x ∉ l) :
    (l ++ [x]).Nodup := by
  rw [List.nodup_append]
  exact ⟨hl, List.nodup_singleton x, by simpa [List.disjoint_singleton] using hx⟩

theorem track_of_completed (s : LockSt) (a : Arrival)
    (hnone : epEntry s a.joined = none)
    (h : ∃ o, (a.joined, o) ∈ s.completions ∧
        (s.promises a.pid = .settled o ∨ ∃ ws, (ws, o) ∈ s.timers ∧ a.pid ∈ ws)) :
    ArrivalTrack s a := by
  unfold ArrivalTrack
  rw [hnone]
  exact h

theorem track_of_live (s : LockSt) (a : Arrival) (e : Entry)
    (hsome : epEntry s a.joined = some e)
    (hpend : s.promises a.pid = .pending)
    (htrig : a.trig = true → a.pid = e.pid ∧ a.key = e.key)
    (hwait : a.trig = false → ∃ k ws, e.key = some k ∧ a.key = some k ∧
        lookupReg s.regs k = some ws ∧ a.pid ∈ ws) :
    ArrivalTrack s a := by
  unfold ArrivalTrack
  rw [hsome]
  exact ⟨hpend, htrig, hwait⟩

theorem track_elim (s : LockSt) (a : Arrival) (h : ArrivalTrack s a) :
    (∃ e, epEntry s a.joined = some e ∧
        s.promises a.pid = .pending ∧
        (a.trig = true → a.pid = e.pid ∧ a.key = e.key) ∧
        (a.trig = false → ∃ k ws, e.key = some k ∧ a.key = some k ∧
            lookupReg s.regs k = some ws ∧ a.pid ∈ ws)) ∨
    (epEntry s a.joined = none ∧ ∃ o, (a.joined, o) ∈ s.completions ∧
        (s.promises a.pid = .settled o ∨ ∃ ws, (ws, o) ∈ s.timers ∧ a.pid ∈ ws)) := by
  unfold ArrivalTrack at h
  rcases hp : epEntry s a.joined with _ | e
  · rw [hp] at h
    exact Or.inr ⟨rfl, h⟩
  · rw [hp] at h
    exact Or.inl ⟨e, rfl, h⟩

theorem lockStep_acquireNone_eq (s : LockSt) :
    lockStep s (.acquire none) =
      (if s.running = [] ∧ s.pending = [] then
        { s with arrivals := s.arrivals ++ [Arrival.mk s.nextPid none true s.nextTid],
                 nextTid := s.nextTid + 1, nextPid := s.nextPid + 1,
                 running := [Entry.mk s.nextTid none s.nextPid],
                 starts := s.starts ++ [s.nextTid] }
      else
        { s with arrivals := s.arrivals ++ [Arrival.mk s.nextPid none true s.nextTid],
                 nextTid := s.nextTid + 1, nextPid := s.nextPid + 1,
                 pending := s.pending ++ [Entry.mk s.nextTid none s.nextPid] }) := rfl

theorem perm_pull_mid {α : Type} (A B C : List α) (p : α) :
    List.Perm (A ++ (B ++ (p :: C))) (p :: (A ++ (B ++ C))) := by
  have h1 : A ++ (B ++ (p :: C)) = (A ++ B) ++ (p :: C) := by rw [List.append_assoc]
  have h2 : p :: (A ++ (B ++ C)) = p :: ((A ++ B) ++ C) := by rw [List.append_assoc]
  rw [h1, h2]
  exact List.perm_middle

theorem lookupReg_append_left (l1 l2 : List (String × List Nat)) (k : String)
    (ws : List Nat) (h : lookupReg l1 k = some ws) : lookupReg (l1 ++ l2) k = some ws := by
  obtain ⟨A, B, rfl, hA⟩ := lookupReg_decomp l1 k ws h
  rw [List.append_assoc, List.cons_append]
  exact lookupReg_append_no_k A _ k ws hA

theorem lookupReg_append_right (l1 l2 : List (String × List Nat)) (k : String)
    (h : lookupReg l1 k = none) : lookupReg (l1 ++ l2) k = lookupReg l2 k := by
  induction l1 with
  | nil => rfl
  | cons e rest ih =>
    obtain ⟨k0, w0⟩ := e
    by_cases hk : k0 = k
    · subst hk
      rw [lookupReg_cons_self] at h
      cases h
    · rw [lookupReg_cons_ne _ _ _ _ hk] at h
      rw [List.cons_append, lookupReg_cons_ne _ _ _ _ hk]
      exact ih h

theorem lockInv_acquireNone (s : LockSt) (inv : LockInv s) :
    LockInv (lockStep s (.acquire none)) := by
  rw [lockStep_acquireNone_eq]
  by_cases hc : s.running = [] ∧ s.pending = []
  · rw [if_pos hc]
    obtain ⟨hrun, hpend⟩ := hc
    have hentries : entries s = [] := by simp [entries, hrun, hpend]
    have hps : pidsOf s = regsPids s.regs ++ timersPids s.timers := by
      simp [pidsOf, hentries]
    refine
      { runLen := by simp
        runEmpty := by simp
        trigOrder := ?_
        regKeys := ?_
        regKeysNodup := inv.regKeysNodup
        entryPend := ?_
        regPend := fun k ws hws p hp => inv.regPend k ws hws p hp
        timerPend := fun ws o hws p hp => inv.timerPend ws o hws p hp
        pidFresh := ?_
        arrivalPidFresh := ?_
        promFresh := fun p hp => inv.promFresh p (Nat.le_of_succ_le hp)
        pidsNodup := ?_
        tidFresh := ?_
        startsFresh := ?_
        complFresh := fun c hc => Nat.lt_succ_of_lt (inv.complFresh c hc)
        arrivalJoinedFresh := ?_
        startsNodup := ?_
        entryTidsNodup := by simp [entries, hpend]
        pendingNotStarted := by simp [hpend]
        runningStarted := ?_
        entryNotCompleted := ?_
        complNodup := inv.complNodup
        complStarted := fun c hc => List.mem_append_left _ (inv.complStarted c hc)
        track := ?_ }
    · -- trigOrder
      have h0 := inv.trigOrder
      rw [hpend] at h0
      simp only [trigJoined, List.filterMap_append] at h0 ⊢
      simp only [List.map_nil, List.append_nil] at h0
      simp [h0, hpend]
    · -- regKeys
      have h0 := inv.regKeys
      rw [hentries] at h0
      have hregs : s.regs.map Prod.fst = [] := h0.symm ▸ rfl
      simp [entries, hpend, hregs]
    · -- entryPend
      intro e he
      simp only [entries, hpend, List.append_nil, List.mem_singleton] at he
      subst he
      exact inv.promFresh s.nextPid le_rfl
    · -- pidFresh
      intro p hp
      simp only [pidsOf, entries, hpend, List.append_nil, List.map_cons, List.map_nil,
        List.singleton_append, List.cons_append, List.nil_append, List.mem_cons,
        List.mem_append] at hp
      rcases hp with rfl | hp
      · exact Nat.lt_succ_self _
      · exact Nat.lt_succ_of_lt (inv.pidFresh p (by rw [hps]; exact List.mem_append.mpr hp))
    · -- arrivalPidFresh
      intro a ha
      rcases List.mem_append.mp ha with h | h
      · exact Nat.lt_succ_of_lt (inv.arrivalPidFresh a h)
      · simp only [List.mem_singleton] at h
        subst h
        exact Nat.lt_succ_self _
    · -- pidsNodup
      have hpn := inv.pidsNodup
      rw [hps] at hpn
      simp only [pidsOf, entries, hpend, List.append_nil, List.map_cons, List.map_nil,
        List.singleton_append, List.cons_append, List.nil_append]
      refine List.Nodup.cons ?_ hpn
      intro hmem
      have := inv.pidFresh s.nextPid (by rw [hps]; exact hmem)
      exact absurd this (lt_irrefl _)
    · -- tidFresh
      intro e he
      simp only [entries, hpend, List.append_nil, List.mem_singleton] at he
      subst he
      exact Nat.lt_succ_self _
    · -- startsFresh
      intro t ht
      rcases List.mem_append.mp ht with h | h
      · exact Nat.lt_succ_of_lt (inv.startsFresh t h)
      · simp only [List.mem_singleton] at h
        subst h
        exact Nat.lt_succ_self _
    · -- arrivalJoinedFresh
      intro a ha
      rcases List.mem_append.mp ha with h | h
      · exact Nat.lt_succ_of_lt (inv.arrivalJoinedFresh a h)
      · simp only [List.mem_singleton] at h
        subst h
        exact Nat.lt_succ_self _
    · -- startsNodup
      refine nodup_snoc _ _ inv.startsNodup ?_
      intro hmem
      exact absurd (inv.startsFresh s.nextTid hmem) (lt_irrefl _)
    · -- runningStarted
      intro e he
      simp only [List.mem_singleton] at he
      subst he
      simp
    · -- entryNotCompleted
      intro e he c hcm
      simp only [entries, hpend, List.append_nil, List.mem_singleton] at he
      subst he
      exact fun h => absurd (h ▸ inv.complFresh c hcm) (lt_irrefl _)
    · -- track
      intro a ha
      rcases List.mem_append.mp ha with h | h
      · -- old arrival: no live entries existed, so its episode is complete
        rcases track_elim s a (inv.track a h) with ⟨e, hsome, _⟩ | ⟨_, o, hco, hrest⟩
        · exfalso
          rw [epEntry, hentries] at hsome
          simp [findTid] at hsome
        · refine track_of_completed _ _ ?_ ⟨o, hco, hrest⟩
          rw [epEntry, findTid_eq_none]
          intro e he
          simp only [entries, hpend, List.append_nil, List.mem_singleton] at he
          subst he
          have := inv.arrivalJoinedFresh a h
          show s.nextTid ≠ a.joined
          omega
      · -- new arrival: live trigger at the head of the chain
        simp only [List.mem_singleton] at h
        subst h
        refine track_of_live _ _ (Entry.mk s.nextTid none s.nextPid) ?_ ?_ ?_ ?_
        · rw [epEntry]
          simp only [entries, hpend, List.append_nil]
          exact findTid_cons_self _ _
        · exact inv.promFresh s.nextPid le_rfl
        · exact fun _ => ⟨rfl, rfl⟩
        · intro hf
          cases hf
  · rw [if_neg hc]
    have hrn : s.running ≠ [] := by
      intro h0
      exact hc ⟨h0, inv.runEmpty h0⟩
    have hperm : List.Perm
        (pidsOf { s with arrivals := s.arrivals ++ [Arrival.mk s.nextPid none true s.nextTid],
                         nextTid := s.nextTid + 1, nextPid := s.nextPid + 1,
                         pending := s.pending ++ [Entry.mk s.nextTid none s.nextPid] })
        (s.nextPid :: pidsOf s) := by
      simp only [pidsOf, entries, List.map_append, List.map_cons, List.map_nil,
        List.append_assoc, List.singleton_append]
      exact perm_pull_mid _ _ _ _
    refine
      { runLen := inv.runLen
        runEmpty := fun h0 => absurd h0 hrn
        trigOrder := ?_
        regKeys := ?_
        regKeysNodup := inv.regKeysNodup
        entryPend := ?_
        regPend := fun k ws hws p hp => inv.regPend k ws hws p hp
        timerPend := fun ws o hws p hp => inv.timerPend ws o hws p hp
        pidFresh := ?_
        arrivalPidFresh := ?_
        promFresh := fun p hp => inv.promFresh p (Nat.le_of_succ_le hp)
        pidsNodup := ?_
        tidFresh := ?_
        startsFresh := fun t ht => Nat.lt_succ_of_lt (inv.startsFresh t ht)
        complFresh := fun c hc => Nat.lt_succ_of_lt (inv.complFresh c hc)
        arrivalJoinedFresh := ?_
        startsNodup := inv.startsNodup
        entryTidsNodup := ?_
        pendingNotStarted := ?_
        runningStarted := inv.runningStarted
        entryNotCompleted := ?_
        complNodup := inv.complNodup
        complStarted := inv.complStarted
        track := ?_ }
    · -- trigOrder
      have h0 := inv.trigOrder
      simp only [trigJoined, List.filterMap_append] at h0 ⊢
      simp [h0, List.append_assoc]
    · -- regKeys
      have h0 := inv.regKeys
      simp only [entries, List.filterMap_append] at h0 ⊢
      simp [← List.append_assoc, h0]
    · -- entryPend
      intro e he
      simp only [entries, ← List.append_assoc, List.mem_append, List.mem_singleton] at he
      rcases he with he | he
      · exact inv.entryPend e (by simpa [entries] using he)
      · subst he
        exact inv.promFresh s.nextPid le_rfl
    · -- pidFresh
      intro p hp
      have := (hperm.mem_iff).mp hp
      rcases List.mem_cons.mp this with rfl | hmem
      · exact Nat.lt_succ_self _
      · exact Nat.lt_succ_of_lt (inv.pidFresh p hmem)
    · -- arrivalPidFresh
      intro a ha
      rcases List.mem_append.mp ha with h | h
      · exact Nat.lt_succ_of_lt (inv.arrivalPidFresh a h)
      · simp only [List.mem_singleton] at h
        subst h
        exact Nat.lt_succ_self _
    · -- pidsNodup
      refine (hperm.nodup_iff).mpr (List.Nodup.cons ?_ inv.pidsNodup)
      intro hmem
      exact absurd (inv.pidFresh s.nextPid hmem) (lt_irrefl _)
    · -- tidFresh
      intro e he
      simp only [entries, ← List.append_assoc, List.mem_append, List.mem_singleton] at he
      rcases he with he | he
      · exact Nat.lt_succ_of_lt (inv.tidFresh e (by simpa [entries] using he))
      · subst he
        exact Nat.lt_succ_self _
    · -- arrivalJoinedFresh
      intro a ha
      rcases List.mem_append.mp ha with h | h
      · exact Nat.lt_succ_of_lt (inv.arrivalJoinedFresh a h)
      · simp only [List.mem_singleton] at h
        subst h
        exact Nat.lt_succ_self _
    · -- entryTidsNodup
      have h0 := inv.entryTidsNodup
      have hper : List.Perm
          ((entries { s with arrivals := s.arrivals ++ [Arrival.mk s.nextPid none true s.nextTid],
                             nextTid := s.nextTid + 1, nextPid := s.nextPid + 1,
                             pending := s.pending ++ [Entry.mk s.nextTid none s.nextPid] }).map
            Entry.tid)
          (s.nextTid :: (entries s).map Entry.tid) := by
        simp only [entries, List.map_append, List.map_cons, List.map_nil, List.append_assoc,
          List.singleton_append]
        have := perm_pull_mid (s.running.map Entry.tid) (s.pending.map Entry.tid) [] s.nextTid
        simpa using this
      refine (hper.nodup_iff).mpr (List.Nodup.cons ?_ h0)
      intro hmem
      rcases List.mem_map.mp hmem with ⟨e, he, htid⟩
      exact absurd (htid ▸ inv.tidFresh e he) (lt_irrefl _)
    · -- pendingNotStarted
      intro e he
      rcases List.mem_append.mp he with h | h
      · exact inv.pendingNotStarted e h
      · simp only [List.mem_singleton] at h
        subst h
        intro hmem
        exact absurd (inv.startsFresh s.nextTid hmem) (lt_irrefl _)
    · -- entryNotCompleted
      intro e he c hcm
      simp only [entries, ← List.append_assoc, List.mem_append, List.mem_singleton] at he
      rcases he with he | he
      · exact inv.entryNotCompleted e (by simpa [entries] using he) c hcm
      · subst he
        exact fun h => absurd (h ▸ inv.complFresh c hcm) (lt_irrefl _)
    · -- track
      intro a ha
      have hfind : ∀ t, t < s.nextTid →
          findTid (entries { s with
              arrivals := s.arrivals ++ [Arrival.mk s.nextPid none true s.nextTid],
              nextTid := s.nextTid + 1, nextPid := s.nextPid + 1,
              pending := s.pending ++ [Entry.mk s.nextTid none s.nextPid] }) t =
            findTid (entries s) t := by
        intro t ht
        simp only [entries, ← List.append_assoc]
        rw [findTid_append]
        rcases hf : findTid (s.running ++ s.pending) t with _ | e
        · simp only [Option.none_or]
          rw [findTid_eq_none]
          intro e he
          simp only [List.mem_singleton] at he
          subst he
          show s.nextTid ≠ t
          omega
        · rfl
      rcases List.mem_append.mp ha with h | h
      · have hj := inv.arrivalJoinedFresh a h
        rcases track_elim s a (inv.track a h) with ⟨e, hsome, hp, ht, hw⟩ | ⟨hnone, o, hco, hrest⟩
        · refine track_of_live _ _ e ?_ hp ht ?_
          · rw [epEntry, hfind a.joined hj]
            exact hsome
          · intro hf
            rcases hw hf with ⟨k, ws, hek, hak, hlk, hmem⟩
            exact ⟨k, ws, hek, hak, hlk, hmem⟩
        · refine track_of_completed _ _ ?_ ⟨o, hco, hrest⟩
          rw [epEntry, hfind a.joined hj]
          exact hnone
      · simp only [List.mem_singleton] at h
        subst h
        refine track_of_live _ _ (Entry.mk s.nextTid none s.nextPid) ?_ ?_ ?_ ?_
        · rw [epEntry]
          simp only [entries, ← List.append_assoc]
          rw [findTid_append]
          have : findTid (s.running ++ s.pending) s.nextTid = none := by
            rw [findTid_eq_none]
            intro e he
            exact Nat.ne_of_lt (inv.tidFresh e (by simpa [entries] using he))
          rw [this]
          simp only [Option.none_or]
          exact findTid_cons_self _ _
        · exact inv.promFresh s.nextPid le_rfl
        · exact fun _ => ⟨rfl, rfl⟩
        · intro hf
          cases hf

theorem findTid_of_mem_nodup (l : List Entry) (e : Entry) (he : e ∈ l)
    (hnd : (l.map Entry.tid).Nodup) : findTid l e.tid = some e := by
  induction l with
  | nil => cases he
  | cons x rest ih =>
    rcases List.mem_cons.mp he with rfl | he'
    · exact findTid_cons_self _ _
    · by_cases hx : x.tid = e.tid
      · exfalso
        have hx' : x.tid ∉ rest.map Entry.tid := (List.nodup_cons.mp hnd).1
        exact hx' (hx ▸ List.mem_map_of_mem Entry.tid he')
      · rw [findTid_cons_ne _ _ _ hx]
        exact ih he' (List.nodup_cons.mp hnd).2

theorem joinEntry_of_lookup (s : LockSt) (inv : LockInv s) (k : String) (ws : List Nat)
    (h : lookupReg s.regs k = some ws) :
    ∃ ej, joinEntry s k = some ej ∧ ej ∈ entries s ∧ ej.key = some k := by
  have hmemk : k ∈ s.regs.map Prod.fst := by
    by_contra hn
    rw [← lookupReg_eq_none_iff] at hn
    rw [h] at hn
    cases hn
  rw [← inv.regKeys] at hmemk
  rcases List.mem_filterMap.mp hmemk with ⟨e, he, hek⟩
  have : ∃ x, joinEntry s k = some x := by
    rw [joinEntry]
    rcases hf : (entries s).find? (fun e => e.key = some k) with _ | x
    · rw [List.find?_eq_none] at hf
      exact absurd (by simp [hek]) (hf e he)
    · exact ⟨x, hf⟩
  rcases this with ⟨x, hx⟩
  refine ⟨x, hx, List.mem_of_find?_eq_some hx, ?_⟩
  have := List.find?_some hx
  simpa using this

theorem setReg_decomp (A B : List (String × List Nat)) (k : String) (ws ws' : List Nat)
    (hA : ∀ e ∈ A, e.1 ≠ k) (hB : ∀ e ∈ B, e.1 ≠ k) :
    setReg (A ++ (k, ws) :: B) k ws' = A ++ (k, ws') :: B := by
  rw [setReg_append, setReg_cons_self, setReg_of_forall_ne A _ _ hA,
    setReg_of_forall_ne B _ _ hB]

theorem perm_pull_mid3 {α : Type} (A B C D : List α) (p : α) :
    List.Perm (A ++ (B ++ (C ++ (p :: D)))) (p :: (A ++ (B ++ (C ++ D)))) := by
  have h1 : A ++ (B ++ (C ++ (p :: D))) = ((A ++ B) ++ C) ++ (p :: D) := by
    simp [List.append_assoc]
  have h2 : p :: (A ++ (B ++ (C ++ D))) = p :: (((A ++ B) ++ C) ++ D) := by
    simp [List.append_assoc]
  rw [h1, h2]
  exact List.perm_middle

theorem lockStep_complete_nil (s : LockSt) (o : Outcome) (hrun : s.running = []) :
    lockStep s (.complete o) = s := by
  simp only [lockStep, hrun]

theorem lockStep_complete_none_nil (s : LockSt) (o : Outcome) (e : Entry)
    (hrun : s.running = [e]) (hkey : e.key = none) (hpend : s.pending = []) :
    lockStep s (.complete o) =
      { s with running := [], promises := settleP s.promises e.pid o,
               completions := s.completions ++ [(e.tid, o)] } := by
  simp only [lockStep, hrun, hkey, hpend]

theorem lockStep_complete_none_cons (s : LockSt) (o : Outcome) (e e2 : Entry)
    (ps : List Entry) (hrun : s.running = [e]) (hkey : e.key = none)
    (hpend : s.pending = e2 :: ps) :
    lockStep s (.complete o) =
      { s with running := [e2], pending := ps,
               promises := settleP s.promises e.pid o,
               completions := s.completions ++ [(e.tid, o)],
               starts := s.starts ++ [e2.tid] } := by
  simp only [lockStep, hrun, hkey, hpend]

theorem lockStep_complete_some_nil (s : LockSt) (o : Outcome) (e : Entry) (k : String)
    (hrun : s.running = [e]) (hkey : e.key = some k) (hpend : s.pending = []) :
    lockStep s (.complete o) =
      { s with running := [], promises := settleP s.promises e.pid o,
               completions := s.completions ++ [(e.tid, o)],
               timers := s.timers ++ [((lookupReg s.regs k).getD [], o)],
               regs := eraseReg s.regs k } := by
  simp only [lockStep, hrun, hkey, hpend]

theorem lockStep_complete_some_cons (s : LockSt) (o : Outcome) (e e2 : Entry) (k : String)
    (ps : List Entry) (hrun : s.running = [e]) (hkey : e.key = some k)
    (hpend : s.pending = e2 :: ps) :
    lockStep s (.complete o) =
      { s with running := [e2], pending := ps,
               promises := settleP s.promises e.pid o,
               completions := s.completions ++ [(e.tid, o)],
               timers := s.timers ++ [((lookupReg s.regs k).getD [], o)],
               regs := eraseReg s.regs k,
               starts := s.starts ++ [e2.tid] } := by
  simp only [lockStep, hrun, hkey, hpend]

theorem mem_regsPids (regs : List (String × List Nat)) (k : String) (ws : List Nat)
    (p : Nat) (h : lookupReg regs k = some ws) (hp : p ∈ ws) : p ∈ regsPids regs := by
  obtain ⟨A, B, rfl, -⟩ := lookupReg_decomp regs k ws h
  rw [regsPids, List.mem_flatten]
  exact ⟨ws, List.mem_map_of_mem Prod.snd
    (show (k, ws) ∈ A ++ (k, ws) :: B by simp), hp⟩

theorem mem_timersPids (timers : List (List Nat × Outcome)) (ws : List Nat) (o : Outcome)
    (p : Nat) (h : (ws, o) ∈ timers) (hp : p ∈ ws) : p ∈ timersPids timers := by
  rw [timersPids, List.mem_flatten]
  exact ⟨ws, List.mem_map_of_mem Prod.fst h, hp⟩

theorem lockStep_acquireKeyed_new_eq (s : LockSt) (k : String)
    (h : lookupReg s.regs k = none) :
    lockStep s (.acquire (some k)) =
      (if s.running = [] ∧ s.pending = [] then
        { s with regs := s.regs ++ [(k, [])],
                 arrivals := s.arrivals ++ [Arrival.mk s.nextPid (some k) true s.nextTid],
                 nextTid := s.nextTid + 1, nextPid := s.nextPid + 1,
                 running := [Entry.mk s.nextTid (some k) s.nextPid],
                 starts := s.starts ++ [s.nextTid] }
      else
        { s with regs := s.regs ++ [(k, [])],
                 arrivals := s.arrivals ++ [Arrival.mk s.nextPid (some k) true s.nextTid],
                 nextTid := s.nextTid + 1, nextPid := s.nextPid + 1,
                 pending := s.pending ++ [Entry.mk s.nextTid (some k) s.nextPid] }) := by
  simp only [lockStep, h]

theorem lockStep_acquireKeyed_wait_eq (s : LockSt) (k : String) (ws : List Nat)
    (h : lookupReg s.regs k = some ws) :
    lockStep s (.acquire (some k)) =
      { s with regs := setReg s.regs k (ws ++ [s.nextPid]),
               arrivals := s.arrivals ++ [Arrival.mk s.nextPid (some k) false
                 (((joinEntry s k).map Entry.tid).getD 0)],
               nextPid := s.nextPid + 1 } := by
  simp only [lockStep, h]

theorem perm_pull_mid4 {α : Type} (A B C D E : List α) (p : α) :
    List.Perm (A ++ (B ++ (C ++ (D ++ (p :: E)))))
      (p :: (A ++ (B ++ (C ++ (D ++ E))))) := by
  have h1 : A ++ (B ++ (C ++ (D ++ (p :: E)))) = (((A ++ B) ++ C) ++ D) ++ (p :: E) := by
    simp [List.append_assoc]
  have h2 : p :: (A ++ (B ++ (C ++ (D ++ E)))) = p :: ((((A ++ B) ++ C) ++ D) ++ E) := by
    simp [List.append_assoc]
  rw [h1, h2]
  exact List.perm_middle

theorem lockInv_acquireKeyed_wait (s : LockSt) (inv : LockInv s) (k : String) (ws : List Nat)
    (hlk : lookupReg s.regs k = some ws) :
    LockInv (lockStep s (.acquire (some k))) := by
  rw [lockStep_acquireKeyed_wait_eq s k ws hlk]
  obtain ⟨ej, hje, hejmem, hejk⟩ := joinEntry_of_lookup s inv k ws hlk
  simp only [hje, Option.map_some', Option.getD_some]
  obtain ⟨A, B, hAB, hA⟩ := lookupReg_decomp s.regs k ws hlk
  have hBk : ∀ e ∈ B, e.1 ≠ k := by
    have h0 := inv.regKeysNodup
    rw [hAB] at h0
    simp only [List.map_append, List.map_cons] at h0
    have h1 := (List.nodup_append.mp h0).2.1
    have hk := (List.nodup_cons.mp h1).1
    intro e he heq
    exact hk (heq ▸ List.mem_map_of_mem Prod.fst he)
  have hset : ∀ ws', setReg s.regs k ws' = A ++ (k, ws') :: B := by
    intro ws'
    rw [hAB]
    exact setReg_decomp A B k ws ws' hA hBk
  have hperm : List.Perm
      (pidsOf { s with regs := setReg s.regs k (ws ++ [s.nextPid]),
                       arrivals := s.arrivals ++ [Arrival.mk s.nextPid (some k) false ej.tid],
                       nextPid := s.nextPid + 1 })
      (s.nextPid :: pidsOf s) := by
    have hset2 := hset (ws ++ [s.nextPid])
    simp only [pidsOf, entries, regsPids, timersPids]
    rw [hset2, hAB]
    simp only [List.map_append, List.map_cons, List.flatten_append, List.flatten_cons,
      List.append_assoc, List.singleton_append, List.cons_append, List.nil_append]
    exact perm_pull_mid4 _ _ _ _ _ _
  have hlk' : lookupReg (setReg s.regs k (ws ++ [s.nextPid])) k = some (ws ++ [s.nextPid]) :=
    lookupReg_setReg_self s.regs k _ ws hlk
  refine
    { runLen := inv.runLen
      runEmpty := inv.runEmpty
      trigOrder := ?_
      regKeys := ?_
      regKeysNodup := by rw [setReg_map_fst]; exact inv.regKeysNodup
      entryPend := inv.entryPend
      regPend := ?_
      timerPend := inv.timerPend
      pidFresh := ?_
      arrivalPidFresh := ?_
      promFresh := fun p hp => inv.promFresh p (Nat.le_of_succ_le hp)
      pidsNodup := ?_
      tidFresh := inv.tidFresh
      startsFresh := inv.startsFresh
      complFresh := inv.complFresh
      arrivalJoinedFresh := ?_
      startsNodup := inv.startsNodup
      entryTidsNodup := inv.entryTidsNodup
      pendingNotStarted := inv.pendingNotStarted
      runningStarted := inv.runningStarted
      entryNotCompleted := inv.entryNotCompleted
      complNodup := inv.complNodup
      complStarted := inv.complStarted
      track := ?_ }
  · -- trigOrder
    have h0 := inv.trigOrder
    simp only [trigJoined, List.filterMap_append] at h0 ⊢
    simpa using h0
  · -- regKeys
    rw [setReg_map_fst]
    exact inv.regKeys
  · -- regPend
    intro k' ws' hws' p hp
    by_cases hk' : k' = k
    · subst hk'
      rw [hlk'] at hws'
      obtain rfl : ws ++ [s.nextPid] = ws' := by injection hws'
      rcases List.mem_append.mp hp with h | h
      · exact inv.regPend k' ws hlk p h
      · simp only [List.mem_singleton] at h
        subst h
        exact inv.promFresh _ le_rfl
    · rw [lookupReg_setReg_ne _ _ _ _ hk'] at hws'
      exact inv.regPend k' ws' hws' p hp
  · -- pidFresh
    intro p hp
    have := (hperm.mem_iff).mp hp
    rcases List.mem_cons.mp this with rfl | hmem
    · exact Nat.lt_succ_self _
    · exact Nat.lt_succ_of_lt (inv.pidFresh p hmem)
  · -- arrivalPidFresh
    intro a ha
    rcases List.mem_append.mp ha with h | h
    · exact Nat.lt_succ_of_lt (inv.arrivalPidFresh a h)
    · simp only [List.mem_singleton] at h
      subst h
      exact Nat.lt_succ_self _
  · -- pidsNodup
    refine (hperm.nodup_iff).mpr (List.Nodup.cons ?_ inv.pidsNodup)
    intro hmem
    exact absurd (inv.pidFresh s.nextPid hmem) (lt_irrefl _)
  · -- arrivalJoinedFresh
    intro a ha
    rcases List.mem_append.mp ha with h | h
    · exact inv.arrivalJoinedFresh a h
    · simp only [List.mem_singleton] at h
      subst h
      exact inv.tidFresh ej hejmem
  · -- track
    intro a ha
    rcases List.mem_append.mp ha with h | h
    · rcases track_elim s a (inv.track a h) with ⟨e, hsome, hp, ht, hw⟩ | ⟨hnone, o, hco, hrest⟩
      · refine track_of_live _ _ e hsome hp ht ?_
        intro hf
        rcases hw hf with ⟨k', ws', hek, hak, hlkk, hmem⟩
        by_cases hk' : k' = k
        · subst hk'
          rw [hlk] at hlkk
          obtain rfl : ws = ws' := by injection hlkk
          exact ⟨k', ws ++ [s.nextPid], hek, hak, hlk', List.mem_append_left _ hmem⟩
        · exact ⟨k', ws', hek, hak, by rw [lookupReg_setReg_ne _ _ _ _ hk']; exact hlkk, hmem⟩
      · exact track_of_completed _ _ hnone ⟨o, hco, hrest⟩
    · simp only [List.mem_singleton] at h
      subst h
      refine track_of_live _ _ ej ?_ ?_ ?_ ?_
      · rw [epEntry]
        show findTid (entries s) ej.tid = some ej
        exact findTid_of_mem_nodup (entries s) ej hejmem inv.entryTidsNodup
      · exact inv.promFresh s.nextPid le_rfl
      · intro hf
        cases hf
      · intro _
        exact ⟨k, ws ++ [s.nextPid], hejk, rfl, hlk', by simp⟩

theorem lockInv_complete (s : LockSt) (inv : LockInv s) (o : Outcome) :
    LockInv (lockStep s (.complete o)) := by
  rcases hrun : s.running with _ | ⟨e, rest⟩
  · rw [lockStep_complete_nil s o hrun]
    exact inv
  have hrest : rest = [] := by
    have h1 := inv.runLen
    rw [hrun] at h1
    simp only [List.length_cons] at h1
    exact List.length_eq_zero.mp (by omega)
  subst hrest
  have hentries : entries s = e :: s.pending := by rw [entries, hrun]; rfl
  have hemem : e ∈ entries s := by rw [hentries]; exact List.mem_cons_self _ _
  have hepend : s.promises e.pid = .pending := inv.entryPend e hemem
  have hestart : e.tid ∈ s.starts := inv.runningStarted e (by rw [hrun]; simp)
  have htidnd : (e.tid :: s.pending.map Entry.tid).Nodup := by
    have h0 := inv.entryTidsNodup
    rw [hentries] at h0
    simpa using h0
  have hetid_pend : e.tid ∉ s.pending.map Entry.tid := (List.nodup_cons.mp htidnd).1
  have hpendnd : (s.pending.map Entry.tid).Nodup := (List.nodup_cons.mp htidnd).2
  have hpids : pidsOf s =
      e.pid :: (s.pending.map Entry.pid ++ (regsPids s.regs ++ timersPids s.timers)) := by
    rw [pidsOf, hentries]
    simp [List.append_assoc]
  have hpidnd : (e.pid ::
      (s.pending.map Entry.pid ++ (regsPids s.regs ++ timersPids s.timers))).Nodup := by
    rw [← hpids]
    exact inv.pidsNodup
  have henotin : e.pid ∉
      s.pending.map Entry.pid ++ (regsPids s.regs ++ timersPids s.timers) :=
    (List.nodup_cons.mp hpidnd).1
  have hrestnd : (s.pending.map Entry.pid ++
      (regsPids s.regs ++ timersPids s.timers)).Nodup :=
    (List.nodup_cons.mp hpidnd).2
  have hepid_notP : e.pid ∉ s.pending.map Entry.pid :=
    fun h => henotin (List.mem_append_left _ h)
  have hepid_notR : e.pid ∉ regsPids s.regs :=
    fun h => henotin (List.mem_append_right _ (List.mem_append_left _ h))
  have hepid_notT : e.pid ∉ timersPids s.timers :=
    fun h => henotin (List.mem_append_right _ (List.mem_append_right _ h))
  have hnotcompl : ∀ c ∈ s.completions, e.tid ≠ c.1 :=
    fun c hc => inv.entryNotCompleted e hemem c hc
  have hsetne : ∀ p, p ≠ e.pid → settleP s.promises e.pid o p = s.promises p :=
    fun p hp => settleP_ne _ _ _ _ hp
  have hseteq : settleP s.promises e.pid o e.pid = .settled o := settleP_eq _ _ _ hepend
  have hepidlt : e.pid < s.nextPid :=
    inv.pidFresh e.pid (by rw [hpids]; exact List.mem_cons_self _ _)
  have hetidlt : e.tid < s.nextTid := inv.tidFresh e hemem
  have hep_self : epEntry s e.tid = some e := by
    rw [epEntry, hentries]
    exact findTid_cons_self _ _
  have hep_other : ∀ t, t ≠ e.tid → epEntry s t = findTid s.pending t := by
    intro t ht
    rw [epEntry, hentries, findTid_cons_ne _ _ _ (fun hh => ht hh.symm)]
  have hetid_notin_compl : e.tid ∉ s.completions.map Prod.fst := by
    intro hmem
    rcases List.mem_map.mp hmem with ⟨c, hc, hceq⟩
    exact hnotcompl c hc hceq.symm
  have hpend_mem : ∀ e' ∈ s.pending, e' ∈ entries s := by
    intro e' h
    rw [hentries]
    exact List.mem_cons_of_mem _ h
  have hlive_pid_ne : ∀ a ∈ s.arrivals, ∀ e', epEntry s a.joined = some e' → e' ≠ e →
      s.promises a.pid = .pending →
      (a.trig = true → a.pid = e'.pid ∧ a.key = e'.key) →
      (a.trig = false → ∃ k' ws', e'.key = some k' ∧ a.key = some k' ∧
          lookupReg s.regs k' = some ws' ∧ a.pid ∈ ws') →
      a.pid ≠ e.pid := by
    intro a ha e' hsome hne hp ht hw
    obtain ⟨hmem', htid'⟩ := findTid_mem _ _ _ hsome
    have he'pend : e' ∈ s.pending := by
      rw [hentries] at hmem'
      rcases List.mem_cons.mp hmem' with rfl | h
      · exact absurd rfl hne
      · exact h
    by_cases htr : a.trig = true
    · obtain ⟨hpid, -⟩ := ht htr
      rw [hpid]
      intro hcon
      exact hepid_notP (hcon ▸ List.mem_map_of_mem Entry.pid he'pend)
    · have hfalse : a.trig = false := by
        cases hv : a.trig
        · rfl
        · exact absurd hv htr
      rcases hw hfalse with ⟨k', ws', hek, hak, hlk', hmem''⟩
      intro hcon
      exact hepid_notR (hcon ▸ mem_regsPids s.regs k' ws' a.pid hlk' hmem'')
  rcases hkeyc : e.key with _ | k
  · rcases hpendc : s.pending with _ | ⟨e2, ps⟩
    · -- unkeyed task completes, chain becomes idle
      rw [lockStep_complete_none_nil s o e hrun hkeyc hpendc]
      have hregKeys' : s.pending.filterMap Entry.key = s.regs.map Prod.fst := by
        have h0 := inv.regKeys
        rw [hentries] at h0
        simpa [hkeyc] using h0
      refine
        { runLen := by simp
          runEmpty := fun _ => hpendc
          trigOrder := inv.trigOrder
          regKeys := by
            simp only [entries, List.nil_append]
            exact hregKeys'
          regKeysNodup := inv.regKeysNodup
          entryPend := ?_
          regPend := ?_
          timerPend := ?_
          pidFresh := ?_
          arrivalPidFresh := inv.arrivalPidFresh
          promFresh := ?_
          pidsNodup := ?_
          tidFresh := fun e' he' => inv.tidFresh e' (hpend_mem e' he')
          startsFresh := inv.startsFresh
          complFresh := ?_
          arrivalJoinedFresh := inv.arrivalJoinedFresh
          startsNodup := inv.startsNodup
          entryTidsNodup := by
            simp only [entries, List.nil_append]
            exact hpendnd
          pendingNotStarted := inv.pendingNotStarted
          runningStarted := by simp
          entryNotCompleted := ?_
          complNodup := ?_
          complStarted := ?_
          track := ?_ }
      · -- entryPend
        intro e' he'
        simp only [entries, List.nil_append] at he'
        have hne : e'.pid ≠ e.pid := by
          intro hcon
          exact hepid_notP (hcon ▸ List.mem_map_of_mem Entry.pid he')
        exact (hsetne _ hne).trans (inv.entryPend e' (hpend_mem e' he'))
      · -- regPend
        intro k' ws' hws' p hp
        have hne : p ≠ e.pid := by
          intro hcon
          exact hepid_notR (hcon ▸ mem_regsPids s.regs k' ws' p hws' hp)
        exact (hsetne _ hne).trans (inv.regPend k' ws' hws' p hp)
      · -- timerPend
        intro ws' o' hws' p hp
        have hne : p ≠ e.pid := by
          intro hcon
          exact hepid_notT (hcon ▸ mem_timersPids s.timers ws' o' p hws' hp)
        exact (hsetne _ hne).trans (inv.timerPend ws' o' hws' p hp)
      · -- pidFresh
        intro p hp
        simp only [pidsOf, entries, List.nil_append, List.append_assoc] at hp
        exact inv.pidFresh p (by rw [hpids]; exact List.mem_cons_of_mem _ hp)
      · -- promFresh
        intro p hp
        have hp' : s.nextPid ≤ p := hp
        have hne : p ≠ e.pid := by omega
        exact (hsetne _ hne).trans (inv.promFresh p hp')
      · -- pidsNodup
        simp only [pidsOf, entries, List.nil_append, List.append_assoc]
        exact hrestnd
      · -- complFresh
        intro c hc
        rcases List.mem_append.mp hc with h | h
        · exact inv.complFresh c h
        · simp only [List.mem_singleton] at h
          subst h
          exact hetidlt
      · -- entryNotCompleted
        intro e' he' c hc
        simp only [entries, List.nil_append] at he'
        rcases List.mem_append.mp hc with h | h
        · exact inv.entryNotCompleted e' (hpend_mem e' he') c h
        · simp only [List.mem_singleton] at h
          subst h
          intro hcon
          have hcon' : e'.tid = e.tid := hcon
          exact hetid_pend (hcon' ▸ List.mem_map_of_mem Entry.tid he')
      · -- complNodup
        rw [List.map_append]
        exact nodup_snoc _ _ inv.complNodup hetid_notin_compl
      · -- complStarted
        intro c hc
        rcases List.mem_append.mp hc with h | h
        · exact inv.complStarted c h
        · simp only [List.mem_singleton] at h
          subst h
          exact hestart
      · -- track
        intro a ha
        by_cases hj : a.joined = e.tid
        · rcases track_elim s a (inv.track a ha) with ⟨e', hsome, hp, ht, hw⟩ |
            ⟨hnone, -⟩
          · have he' : e' = e := by
              rw [hj, hep_self] at hsome
              exact (Option.some.injEq _ _ ▸ hsome).symm
            subst he'
            apply track_of_completed
            · rw [epEntry, findTid_eq_none]
              intro x hx
              simp only [entries, List.nil_append] at hx
              intro hcon
              exact hetid_pend (by rw [← hj, ← hcon]; exact List.mem_map_of_mem Entry.tid hx)
            · refine ⟨o, by rw [hj]; exact List.mem_append_right _ (by simp), ?_⟩
              by_cases htr : a.trig = true
              · obtain ⟨hpid, -⟩ := ht htr
                left
                rw [hpid]
                exact hseteq
              · have hfalse : a.trig = false := by
                  cases hv : a.trig
                  · rfl
                  · exact absurd hv htr
                rcases hw hfalse with ⟨k', ws', hek, -, -, -⟩
                rw [hkeyc] at hek
                cases hek
          · exfalso
            rw [hj, hep_self] at hnone
            cases hnone
        · rcases track_elim s a (inv.track a ha) with ⟨e', hsome, hp, ht, hw⟩ |
            ⟨hnone, o', hco, hrest'⟩
          · have hne : e' ≠ e := by
              intro hcon
              obtain ⟨-, htid'⟩ := findTid_mem _ _ _ hsome
              exact hj (htid' ▸ congrArg Entry.tid hcon ▸ rfl)
            have hpidne : a.pid ≠ e.pid := hlive_pid_ne a ha e' hsome hne hp ht hw
            apply track_of_live _ _ e'
            · rw [epEntry]
              simp only [entries, List.nil_append]
              rw [hep_other a.joined hj] at hsome
              exact hsome
            · exact (hsetne _ hpidne).trans hp
            · exact ht
            · intro hf
              rcases hw hf with ⟨k', ws', hek, hak, hlk', hmem''⟩
              exact ⟨k', ws', hek, hak, hlk', hmem''⟩
          · apply track_of_completed
            · rw [epEntry]
              simp only [entries, List.nil_append]
              rw [hep_other a.joined hj] at hnone
              exact hnone
            · refine ⟨o', List.mem_append_left _ hco, ?_⟩
              rcases hrest' with hsettled | ⟨ws', hbatch, hmem''⟩
              · left
                exact settleP_settled _ _ _ _ _ hsettled
              · right
                exact ⟨ws', hbatch, hmem''⟩
    · -- unkeyed task completes, next chain entry starts
      rw [lockStep_complete_none_cons s o e e2 ps hrun hkeyc hpendc]
      have hpc : e2 :: ps = s.pending := hpendc.symm
      have he2mem : e2 ∈ s.pending := by rw [hpendc]; exact List.mem_cons_self _ _
      have he2tidlt : e2.tid < s.nextTid := inv.tidFresh e2 (hpend_mem e2 he2mem)
      have he2notstart : e2.tid ∉ s.starts := inv.pendingNotStarted e2 he2mem
      have hpsnd : e2.tid ∉ ps.map Entry.tid ∧ (ps.map Entry.tid).Nodup := by
        have h0 := hpendnd
        rw [hpendc] at h0
        simp only [List.map_cons] at h0
        exact ⟨(List.nodup_cons.mp h0).1, (List.nodup_cons.mp h0).2⟩
      have hregKeys' : s.pending.filterMap Entry.key = s.regs.map Prod.fst := by
        have h0 := inv.regKeys
        rw [hentries] at h0
        simpa [hkeyc] using h0
      refine
        { runLen := by simp
          runEmpty := by intro h; simp at h
          trigOrder := ?_
          regKeys := ?_
          regKeysNodup := inv.regKeysNodup
          entryPend := ?_
          regPend := ?_
          timerPend := ?_
          pidFresh := ?_
          arrivalPidFresh := inv.arrivalPidFresh
          promFresh := ?_
          pidsNodup := ?_
          tidFresh := ?_
          startsFresh := ?_
          complFresh := ?_
          arrivalJoinedFresh := inv.arrivalJoinedFresh
          startsNodup := nodup_snoc _ _ inv.startsNodup he2notstart
          entryTidsNodup := ?_
          pendingNotStarted := ?_
          runningStarted := ?_
          entryNotCompleted := ?_
          complNodup := ?_
          complStarted := ?_
          track := ?_ }
      · -- trigOrder
        have h0 := inv.trigOrder
        rw [hpendc] at h0
        simp only [List.map_cons] at h0
        rw [List.append_cons] at h0
        exact h0
      · -- regKeys
        simp only [entries, List.singleton_append]
        rw [hpc]
        exact hregKeys'
      · -- entryPend
        intro e' he'
        simp only [entries, List.singleton_append] at he'
        rw [hpc] at he'
        have hne : e'.pid ≠ e.pid := by
          intro hcon
          exact hepid_notP (hcon ▸ List.mem_map_of_mem Entry.pid he')
        exact (hsetne _ hne).trans (inv.entryPend e' (hpend_mem e' he'))
      · -- regPend
        intro k' ws' hws' p hp
        have hne : p ≠ e.pid := by
          intro hcon
          exact hepid_notR (hcon ▸ mem_regsPids s.regs k' ws' p hws' hp)
        exact (hsetne _ hne).trans (inv.regPend k' ws' hws' p hp)
      · -- timerPend
        intro ws' o' hws' p hp
        have hne : p ≠ e.pid := by
          intro hcon
          exact hepid_notT (hcon ▸ mem_timersPids s.timers ws' o' p hws' hp)
        exact (hsetne _ hne).trans (inv.timerPend ws' o' hws' p hp)
      · -- pidFresh
        intro p hp
        simp only [pidsOf, entries, List.singleton_append, List.append_assoc] at hp
        rw [hpc] at hp
        exact inv.pidFresh p (by rw [hpids]; exact List.mem_cons_of_mem _ hp)
      · -- promFresh
        intro p hp
        have hp' : s.nextPid ≤ p := hp
        have hne : p ≠ e.pid := by omega
        exact (hsetne _ hne).trans (inv.promFresh p hp')
      · -- pidsNodup
        simp only [pidsOf, entries, List.singleton_append, List.append_assoc]
        rw [hpc]
        exact hrestnd
      · -- tidFresh
        intro e' he'
        simp only [entries, List.singleton_append] at he'
        rw [hpc] at he'
        exact inv.tidFresh e' (hpend_mem e' he')
      · -- startsFresh
        intro t ht
        rcases List.mem_append.mp ht with h | h
        · exact inv.startsFresh t h
        · simp only [List.mem_singleton] at h
          subst h
          exact he2tidlt
      · -- complFresh
        intro c hc
        rcases List.mem_append.mp hc with h | h
        · exact inv.complFresh c h
        · simp only [List.mem_singleton] at h
          subst h
          exact hetidlt
      · -- entryTidsNodup
        simp only [entries, List.singleton_append]
        rw [hpc]
        exact hpendnd
      · -- pendingNotStarted
        intro e3 he3
        intro hmem
        rcases List.mem_append.mp hmem with h | h
        · exact inv.pendingNotStarted e3 (by rw [hpendc]; exact List.mem_cons_of_mem _ he3) h
        · simp only [List.mem_singleton] at h
          exact hpsnd.1 (h ▸ List.mem_map_of_mem Entry.tid he3)
      · -- runningStarted
        intro e' he'
        simp only [List.mem_singleton] at he'
        subst he'
        exact List.mem_append_right _ (by simp)
      · -- entryNotCompleted
        intro e' he' c hc
        simp only [entries, List.singleton_append] at he'
        rw [hpc] at he'
        rcases List.mem_append.mp hc with h | h
        · exact inv.entryNotCompleted e' (hpend_mem e' he') c h
        · simp only [List.mem_singleton] at h
          subst h
          intro hcon
          have hcon' : e'.tid = e.tid := hcon
          exact hetid_pend (hcon' ▸ List.mem_map_of_mem Entry.tid he')
      · -- complNodup
        rw [List.map_append]
        exact nodup_snoc _ _ inv.complNodup hetid_notin_compl
      · -- complStarted
        intro c hc
        rcases List.mem_append.mp hc with h | h
        · exact List.mem_append_left _ (inv.complStarted c h)
        · simp only [List.mem_singleton] at h
          subst h
          exact List.mem_append_left _ hestart
      · -- track
        intro a ha
        by_cases hj : a.joined = e.tid
        · rcases track_elim s a (inv.track a ha) with ⟨e', hsome, hp, ht, hw⟩ |
            ⟨hnone, -⟩
          · have he' : e' = e := by
              rw [hj, hep_self] at hsome
              exact (Option.some.injEq _ _ ▸ hsome).symm
            subst he'
            apply track_of_completed
            · rw [epEntry, findTid_eq_none]
              intro x hx
              simp only [entries, List.singleton_append] at hx
              rw [hpc] at hx
              intro hcon
              exact hetid_pend (by rw [← hj, ← hcon]; exact List.mem_map_of_mem Entry.tid hx)
            · refine ⟨o, by rw [hj]; exact List.mem_append_right _ (by simp), ?_⟩
              by_cases htr : a.trig = true
              · obtain ⟨hpid, -⟩ := ht htr
                left
                rw [hpid]
                exact hseteq
              · have hfalse : a.trig = false := by
                  cases hv : a.trig
                  · rfl
                  · exact absurd hv htr
                rcases hw hfalse with ⟨k', ws', hek, -, -, -⟩
                rw [hkeyc] at hek
                cases hek
          · exfalso
            rw [hj, hep_self] at hnone
            cases hnone
        · rcases track_elim s a (inv.track a ha) with ⟨e', hsome, hp, ht, hw⟩ |
            ⟨hnone, o', hco, hrest'⟩
          · have hne : e' ≠ e := by
              intro hcon
              obtain ⟨-, htid'⟩ := findTid_mem _ _ _ hsome
              exact hj (htid' ▸ congrArg Entry.tid hcon ▸ rfl)
            have hpidne : a.pid ≠ e.pid := hlive_pid_ne a ha e' hsome hne hp ht hw
            apply track_of_live _ _ e'
            · rw [epEntry]
              simp only [entries, List.singleton_append]
              rw [hpc]
              rw [hep_other a.joined hj] at hsome
              exact hsome
            · exact (hsetne _ hpidne).trans hp
            · exact ht
            · intro hf
              rcases hw hf with ⟨k', ws', hek, hak, hlk', hmem''⟩
              exact ⟨k', ws', hek, hak, hlk', hmem''⟩
          · apply track_of_completed
            · rw [epEntry]
              simp only [entries, List.singleton_append]
              rw [hpc]
              rw [hep_other a.joined hj] at hnone
              exact hnone
            · refine ⟨o', List.mem_append_left _ hco, ?_⟩
              rcases hrest' with hsettled | ⟨ws', hbatch, hmem''⟩
              · left
                exact settleP_settled _ _ _ _ _ hsettled
              · right
                exact ⟨ws', hbatch, hmem''⟩
  · -- keyed
    have hkeys : s.regs.map Prod.fst = k :: s.pending.filterMap Entry.key := by
      have h0 := inv.regKeys
      rw [hentries] at h0
      rw [← h0]
      simp [hkeyc]
    have hkmem : k ∈ s.regs.map Prod.fst := by
      rw [hkeys]
      exact List.mem_cons_self _ _
    obtain ⟨ws, hlk⟩ := lookupReg_isSome_of_mem_keys s.regs k hkmem
    obtain ⟨A, B, hAB, hA⟩ := lookupReg_decomp s.regs k ws hlk
    have hA0 : A = [] := by
      rcases A with _ | ⟨a, A'⟩
      · rfl
      · exfalso
        rw [hAB] at hkeys
        simp only [List.map_append, List.map_cons, List.cons_append] at hkeys
        have ha1 : a.1 = k := by injection hkeys
        exact hA a (List.mem_cons_self _ _) ha1
    subst hA0
    rw [List.nil_append] at hAB
    have hknotB : k ∉ B.map Prod.fst := by
      have h0 := inv.regKeysNodup
      rw [hAB] at h0
      simp only [List.map_cons] at h0
      exact (List.nodup_cons.mp h0).1
    have hBk : ∀ x ∈ B, x.1 ≠ k := by
      intro x hx heq
      exact hknotB (heq ▸ List.mem_map_of_mem Prod.fst hx)
    have herase : eraseReg s.regs k = B := by
      rw [hAB, eraseReg_cons_self, eraseReg_of_forall_ne B k hBk]
    have hgetD : (lookupReg s.regs k).getD [] = ws := by rw [hlk]; rfl
    have hBkeys : B.map Prod.fst = s.pending.filterMap Entry.key := by
      rw [hAB] at hkeys
      simp only [List.map_cons] at hkeys
      injection hkeys
    have hBnodup : (B.map Prod.fst).Nodup := by
      have h0 := inv.regKeysNodup
      rw [hAB] at h0
      simp only [List.map_cons] at h0
      exact (List.nodup_cons.mp h0).2
    have hBlooknone : lookupReg B k = none := (lookupReg_eq_none_iff B k).mpr hknotB
    have hBlook : ∀ k', k' ≠ k → lookupReg B k' = lookupReg s.regs k' := by
      intro k' hk'
      rw [hAB, lookupReg_cons_ne _ _ _ _ (fun h => hk' h.symm)]
    have hRP : regsPids s.regs = ws ++ regsPids B := by
      rw [hAB]
      simp [regsPids]
    have hws_sub : ∀ p ∈ ws, p ∈ regsPids s.regs :=
      fun p hp => mem_regsPids s.regs k ws p hlk hp
    have hws_pend : ∀ p ∈ ws, s.promises p = .pending := inv.regPend k ws hlk
    have hinner : List.Perm (regsPids B ++ (timersPids s.timers ++ ws))
        ((ws ++ regsPids B) ++ timersPids s.timers) := by
      have h1 : regsPids B ++ (timersPids s.timers ++ ws) =
          (regsPids B ++ timersPids s.timers) ++ ws := (List.append_assoc _ _ _).symm
      have h2 : (ws ++ regsPids B) ++ timersPids s.timers =
          ws ++ (regsPids B ++ timersPids s.timers) := List.append_assoc _ _ _
      rw [h1, h2]
      exact List.perm_append_comm
    have hpermC : List.Perm
        (s.pending.map Entry.pid ++ (regsPids B ++ (timersPids s.timers ++ ws)))
        (s.pending.map Entry.pid ++ (regsPids s.regs ++ timersPids s.timers)) := by
      rw [hRP]
      exact List.Perm.append_left _ hinner
    have hTP : timersPids (s.timers ++ [(ws, o)]) = timersPids s.timers ++ ws := by
      simp [timersPids]
    rcases hpendc : s.pending with _ | ⟨e2, ps⟩
    · -- keyed task completes, chain becomes idle
      rw [lockStep_complete_some_nil s o e k hrun hkeyc hpendc, hgetD, herase]
      refine
        { runLen := by simp
          runEmpty := fun _ => hpendc
          trigOrder := inv.trigOrder
          regKeys := by
            simp only [entries, List.nil_append]
            exact hBkeys.symm
          regKeysNodup := hBnodup
          entryPend := ?_
          regPend := ?_
          timerPend := ?_
          pidFresh := ?_
          arrivalPidFresh := inv.arrivalPidFresh
          promFresh := ?_
          pidsNodup := ?_
          tidFresh := fun e' he' => inv.tidFresh e' (hpend_mem e' he')
          startsFresh := inv.startsFresh
          complFresh := ?_
          arrivalJoinedFresh := inv.arrivalJoinedFresh
          startsNodup := inv.startsNodup
          entryTidsNodup := by
            simp only [entries, List.nil_append]
            exact hpendnd
          pendingNotStarted := inv.pendingNotStarted
          runningStarted := by simp
          entryNotCompleted := ?_
          complNodup := ?_
          complStarted := ?_
          track := ?_ }
      · -- entryPend
        intro e' he'
        simp only [entries, List.nil_append] at he'
        have hne : e'.pid ≠ e.pid := by
          intro hcon
          exact hepid_notP (hcon ▸ List.mem_map_of_mem Entry.pid he')
        exact (hsetne _ hne).trans (inv.entryPend e' (hpend_mem e' he'))
      · -- regPend
        intro k' ws' hws' p hp
        by_cases hk' : k' = k
        · subst hk'
          rw [hBlooknone] at hws'
          cases hws'
        · rw [hBlook k' hk'] at hws'
          have hne : p ≠ e.pid := by
            intro hcon
            exact hepid_notR (hcon ▸ mem_regsPids s.regs k' ws' p hws' hp)
          exact (hsetne _ hne).trans (inv.regPend k' ws' hws' p hp)
      · -- timerPend
        intro ws' o' hws' p hp
        rcases List.mem_append.mp hws' with h | h
        · have hne : p ≠ e.pid := by
            intro hcon
            exact hepid_notT (hcon ▸ mem_timersPids s.timers ws' o' p h hp)
          exact (hsetne _ hne).trans (inv.timerPend ws' o' h p hp)
        · simp only [List.mem_singleton, Prod.mk.injEq] at h
          obtain ⟨rfl, rfl⟩ : ws = ws' ∧ o = o' := ⟨h.1.symm, h.2.symm⟩
          have hne : p ≠ e.pid := by
            intro hcon
            exact hepid_notR (hcon ▸ hws_sub p hp)
          exact (hsetne _ hne).trans (hws_pend p hp)
      · -- pidFresh
        intro p hp
        simp only [pidsOf, entries, List.nil_append, List.append_assoc, hTP] at hp
        rw [← List.append_assoc (regsPids B) (timersPids s.timers) ws] at hp
        have hp2 : p ∈ s.pending.map Entry.pid ++
            (regsPids B ++ (timersPids s.timers ++ ws)) := by
          simpa [List.append_assoc] using hp
        exact inv.pidFresh p (by
          rw [hpids]
          exact List.mem_cons_of_mem _ ((hpermC.mem_iff).mp hp2))
      · -- promFresh
        intro p hp
        have hp' : s.nextPid ≤ p := hp
        have hne : p ≠ e.pid := by omega
        exact (hsetne _ hne).trans (inv.promFresh p hp')
      · -- pidsNodup
        simp only [pidsOf, entries, List.nil_append, List.append_assoc, hTP]
        have : (s.pending.map Entry.pid ++
            (regsPids B ++ (timersPids s.timers ++ ws))).Nodup := by
          refine (hpermC.nodup_iff).mpr ?_
          exact hrestnd
        simpa [List.append_assoc] using this
      · -- complFresh
        intro c hc
        rcases List.mem_append.mp hc with h | h
        · exact inv.complFresh c h
        · simp only [List.mem_singleton] at h
          subst h
          exact hetidlt
      · -- entryNotCompleted
        intro e' he' c hc
        simp only [entries, List.nil_append] at he'
        rcases List.mem_append.mp hc with h | h
        · exact inv.entryNotCompleted e' (hpend_mem e' he') c h
        · simp only [List.mem_singleton] at h
          subst h
          intro hcon
          have hcon' : e'.tid = e.tid := hcon
          exact hetid_pend (hcon' ▸ List.mem_map_of_mem Entry.tid he')
      · -- complNodup
        rw [List.map_append]
        exact nodup_snoc _ _ inv.complNodup hetid_notin_compl
      · -- complStarted
        intro c hc
        rcases List.mem_append.mp hc with h | h
        · exact inv.complStarted c h
        · simp only [List.mem_singleton] at h
          subst h
          exact hestart
      · -- track
        intro a ha
        by_cases hj : a.joined = e.tid
        · rcases track_elim s a (inv.track a ha) with ⟨e', hsome, hp, ht, hw⟩ |
            ⟨hnone, -⟩
          · have he' : e' = e := by
              rw [hj, hep_self] at hsome
              exact (Option.some.injEq _ _ ▸ hsome).symm
            subst he'
            apply track_of_completed
            · rw [epEntry, findTid_eq_none]
              intro x hx
              simp only [entries, List.nil_append] at hx
              intro hcon
              exact hetid_pend (by rw [← hj, ← hcon]; exact List.mem_map_of_mem Entry.tid hx)
            · refine ⟨o, by rw [hj]; exact List.mem_append_right _ (by simp), ?_⟩
              by_cases htr : a.trig = true
              · obtain ⟨hpid, -⟩ := ht htr
                left
                rw [hpid]
                exact hseteq
              · have hfalse : a.trig = false := by
                  cases hv : a.trig
                  · rfl
                  · exact absurd hv htr
                rcases hw hfalse with ⟨k', ws', hek, hak, hlk'', hmem''⟩
                rw [hkeyc] at hek
                have hkk : k' = k := by injection hek.symm
                subst hkk
                rw [hlk] at hlk''
                obtain rfl : ws = ws' := by injection hlk''
                right
                exact ⟨ws, List.mem_append_right _ (by simp), hmem''⟩
          · exfalso
            rw [hj, hep_self] at hnone
            cases hnone
        · rcases track_elim s a (inv.track a ha) with ⟨e', hsome, hp, ht, hw⟩ |
            ⟨hnone, o', hco, hrest'⟩
          · have hne : e' ≠ e := by
              intro hcon
              obtain ⟨-, htid'⟩ := findTid_mem _ _ _ hsome
              exact hj (htid' ▸ congrArg Entry.tid hcon ▸ rfl)
            have hpidne : a.pid ≠ e.pid := hlive_pid_ne a ha e' hsome hne hp ht hw
            have he'pend : e' ∈ s.pending := by
              obtain ⟨hmem', -⟩ := findTid_mem _ _ _ hsome
              rw [hentries] at hmem'
              rcases List.mem_cons.mp hmem' with rfl | h
              · exact absurd rfl hne
              · exact h
            apply track_of_live _ _ e'
            · rw [epEntry]
              simp only [entries, List.nil_append]
              rw [hep_other a.joined hj] at hsome
              exact hsome
            · exact (hsetne _ hpidne).trans hp
            · exact ht
            · intro hf
              rcases hw hf with ⟨k', ws', hek, hak, hlk'', hmem''⟩
              have hk'ne : k' ≠ k := by
                intro hcon
                subst hcon
                exact hknotB (hBkeys ▸ List.mem_filterMap.mpr ⟨e', he'pend, hek ▸ rfl⟩)
              refine ⟨k', ws', hek, hak, ?_, hmem''⟩
              rw [hBlook k' hk'ne]
              exact hlk''
          · apply track_of_completed
            · rw [epEntry]
              simp only [entries, List.nil_append]
              rw [hep_other a.joined hj] at hnone
              exact hnone
            · refine ⟨o', List.mem_append_left _ hco, ?_⟩
              rcases hrest' with hsettled | ⟨ws', hbatch, hmem''⟩
              · left
                exact settleP_settled _ _ _ _ _ hsettled
              · right
                exact ⟨ws', List.mem_append_left _ hbatch, hmem''⟩
    · -- keyed task completes, next chain entry starts
      rw [lockStep_complete_some_cons s o e e2 k ps hrun hkeyc hpendc, hgetD, herase]
      have hpc : e2 :: ps = s.pending := hpendc.symm
      have he2mem : e2 ∈ s.pending := by rw [hpendc]; exact List.mem_cons_self _ _
      have he2tidlt : e2.tid < s.nextTid := inv.tidFresh e2 (hpend_mem e2 he2mem)
      have he2notstart : e2.tid ∉ s.starts := inv.pendingNotStarted e2 he2mem
      have hpsnd : e2.tid ∉ ps.map Entry.tid ∧ (ps.map Entry.tid).Nodup := by
        have h0 := hpendnd
        rw [hpendc] at h0
        simp only [List.map_cons] at h0
        exact ⟨(List.nodup_cons.mp h0).1, (List.nodup_cons.mp h0).2⟩
      refine
        { runLen := by simp
          runEmpty := by intro h; simp at h
          trigOrder := ?_
          regKeys := ?_
          regKeysNodup := hBnodup
          entryPend := ?_
          regPend := ?_
          timerPend := ?_
          pidFresh := ?_
          arrivalPidFresh := inv.arrivalPidFresh
          promFresh := ?_
          pidsNodup := ?_
          tidFresh := ?_
          startsFresh := ?_
          complFresh := ?_
          arrivalJoinedFresh := inv.arrivalJoinedFresh
          startsNodup := nodup_snoc _ _ inv.startsNodup he2notstart
          entryTidsNodup := ?_
          pendingNotStarted := ?_
          runningStarted := ?_
          entryNotCompleted := ?_
          complNodup := ?_
          complStarted := ?_
          track := ?_ }
      · -- trigOrder
        have h0 := inv.trigOrder
        rw [hpendc] at h0
        simp only [List.map_cons] at h0
        rw [List.append_cons] at h0
        exact h0
      · -- regKeys
        simp only [entries, List.singleton_append]
        rw [hpc]
        exact hBkeys.symm
      · -- entryPend
        intro e' he'
        simp only [entries, List.singleton_append] at he'
        rw [hpc] at he'
        have hne : e'.pid ≠ e.pid := by
          intro hcon
          exact hepid_notP (hcon ▸ List.mem_map_of_mem Entry.pid he')
        exact (hsetne _ hne).trans (inv.entryPend e' (hpend_mem e' he'))
      · -- regPend
        intro k' ws' hws' p hp
        by_cases hk' : k' = k
        · subst hk'
          rw [hBlooknone] at hws'
          cases hws'
        · rw [hBlook k' hk'] at hws'
          have hne : p ≠ e.pid := by
            intro hcon
            exact hepid_notR (hcon ▸ mem_regsPids s.regs k' ws' p hws' hp)
          exact (hsetne _ hne).trans (inv.regPend k' ws' hws' p hp)
      · -- timerPend
        intro ws' o' hws' p hp
        rcases List.mem_append.mp hws' with h | h
        · have hne : p ≠ e.pid := by
            intro hcon
            exact hepid_notT (hcon ▸ mem_timersPids s.timers ws' o' p h hp)
          exact (hsetne _ hne).trans (inv.timerPend ws' o' h p hp)
        · simp only [List.mem_singleton, Prod.mk.injEq] at h
          obtain ⟨rfl, rfl⟩ : ws = ws' ∧ o = o' := ⟨h.1.symm, h.2.symm⟩
          have hne : p ≠ e.pid := by
            intro hcon
            exact hepid_notR (hcon ▸ hws_sub p hp)
          exact (hsetne _ hne).trans (hws_pend p hp)
      · -- pidFresh
        intro p hp
        simp only [pidsOf, entries, List.singleton_append, List.append_assoc, hTP] at hp
        rw [hpc] at hp
        have hp2 : p ∈ s.pending.map Entry.pid ++
            (regsPids B ++ (timersPids s.timers ++ ws)) := by
          simpa [List.append_assoc] using hp
        exact inv.pidFresh p (by
          rw [hpids]
          exact List.mem_cons_of_mem _ ((hpermC.mem_iff).mp hp2))
      · -- promFresh
        intro p hp
        have hp' : s.nextPid ≤ p := hp
        have hne : p ≠ e.pid := by omega
        exact (hsetne _ hne).trans (inv.promFresh p hp')
      · -- pidsNodup
        simp only [pidsOf, entries, List.singleton_append, List.append_assoc, hTP]
        rw [hpc]
        have : (s.pending.map Entry.pid ++
            (regsPids B ++ (timersPids s.timers ++ ws))).Nodup := by
          refine (hpermC.nodup_iff).mpr ?_
          exact hrestnd
        simpa [List.append_assoc] using this
      · -- tidFresh
        intro e' he'
        simp only [entries, List.singleton_append] at he'
        rw [hpc] at he'
        exact inv.tidFresh e' (hpend_mem e' he')
      · -- startsFresh
        intro t ht
        rcases List.mem_append.mp ht with h | h
        · exact inv.startsFresh t h
        · simp only [List.mem_singleton] at h
          subst h
          exact he2tidlt
      · -- complFresh
        intro c hc
        rcases List.mem_append.mp hc with h | h
        · exact inv.complFresh c h
        · simp only [List.mem_singleton] at h
          subst h
          exact hetidlt
      · -- entryTidsNodup
        simp only [entries, List.singleton_append]
        rw [hpc]
        exact hpendnd
      · -- pendingNotStarted
        intro e3 he3
        intro hmem
        rcases List.mem_append.mp hmem with h | h
        · exact inv.pendingNotStarted e3 (by rw [hpendc]; exact List.mem_cons_of_mem _ he3) h
        · simp only [List.mem_singleton] at h
          exact hpsnd.1 (h ▸ List.mem_map_of_mem Entry.tid he3)
      · -- runningStarted
        intro e' he'
        simp only [List.mem_singleton] at he'
        subst he'
        exact List.mem_append_right _ (by simp)
      · -- entryNotCompleted
        intro e' he' c hc
        simp only [entries, List.singleton_append] at he'
        rw [hpc] at he'
        rcases List.mem_append.mp hc with h | h
        · exact inv.entryNotCompleted e' (hpend_mem e' he') c h
        · simp only [List.mem_singleton] at h
          subst h
          intro hcon
          have hcon' : e'.tid = e.tid := hcon
          exact hetid_pend (hcon' ▸ List.mem_map_of_mem Entry.tid he')
      · -- complNodup
        rw [List.map_append]
        exact nodup_snoc _ _ inv.complNodup hetid_notin_compl
      · -- complStarted
        intro c hc
        rcases List.mem_append.mp hc with h | h
        · exact List.mem_append_left _ (inv.complStarted c h)
        · simp only [List.mem_singleton] at h
          subst h
          exact List.mem_append_left _ hestart
      · -- track
        intro a ha
        by_cases hj : a.joined = e.tid
        · rcases track_elim s a (inv.track a ha) with ⟨e', hsome, hp, ht, hw⟩ |
            ⟨hnone, -⟩
          · have he' : e' = e := by
              rw [hj, hep_self] at hsome
              exact (Option.some.injEq _ _ ▸ hsome).symm
            subst he'
            apply track_of_completed
            · rw [epEntry, findTid_eq_none]
              intro x hx
              simp only [entries, List.singleton_append] at hx
              rw [hpc] at hx
              intro hcon
              exact hetid_pend (by rw [← hj, ← hcon]; exact List.mem_map_of_mem Entry.tid hx)
            · refine ⟨o, by rw [hj]; exact List.mem_append_right _ (by simp), ?_⟩
              by_cases htr : a.trig = true
              · obtain ⟨hpid, -⟩ := ht htr
                left
                rw [hpid]
                exact hseteq
              · have hfalse : a.trig = false := by
                  cases hv : a.trig
                  · rfl
                  · exact absurd hv htr
                rcases hw hfalse with ⟨k', ws', hek, hak, hlk'', hmem''⟩
                rw [hkeyc] at hek
                have hkk : k' = k := by injection hek.symm
                subst hkk
                rw [hlk] at hlk''
                obtain rfl : ws = ws' := by injection hlk''
                right
                exact ⟨ws, List.mem_append_right _ (by simp), hmem''⟩
          · exfalso
            rw [hj, hep_self] at hnone
            cases hnone
        · rcases track_elim s a (inv.track a ha) with ⟨e', hsome, hp, ht, hw⟩ |
            ⟨hnone, o', hco, hrest'⟩
          · have hne : e' ≠ e := by
              intro hcon
              obtain ⟨-, htid'⟩ := findTid_mem _ _ _ hsome
              exact hj (htid' ▸ congrArg Entry.tid hcon ▸ rfl)
            have hpidne : a.pid ≠ e.pid := hlive_pid_ne a ha e' hsome hne hp ht hw
            have he'pend : e' ∈ s.pending := by
              obtain ⟨hmem', -⟩ := findTid_mem _ _ _ hsome
              rw [hentries] at hmem'
              rcases List.mem_cons.mp hmem' with rfl | h
              · exact absurd rfl hne
              · exact h
            apply track_of_live _ _ e'
            · rw [epEntry]
              simp only [entries, List.singleton_append]
              rw [hpc]
              rw [hep_other a.joined hj] at hsome
              exact hsome
            · exact (hsetne _ hpidne).trans hp
            · exact ht
            · intro hf
              rcases hw hf with ⟨k', ws', hek, hak, hlk'', hmem''⟩
              have hk'ne : k' ≠ k := by
                intro hcon
                subst hcon
                exact hknotB (hBkeys ▸ List.mem_filterMap.mpr ⟨e', he'pend, hek ▸ rfl⟩)
              refine ⟨k', ws', hek, hak, ?_, hmem''⟩
              rw [hBlook k' hk'ne]
              exact hlk''
          · apply track_of_completed
            · rw [epEntry]
              simp only [entries, List.singleton_append]
              rw [hpc]
              rw [hep_other a.joined hj] at hnone
              exact hnone
            · refine ⟨o', List.mem_append_left _ hco, ?_⟩
              rcases hrest' with hsettled | ⟨ws', hbatch, hmem''⟩
              · left
                exact settleP_settled _ _ _ _ _ hsettled
              · right
                exact ⟨ws', List.mem_append_left _ hbatch, hmem''⟩

theorem lockStep_fireTimer_nil (s : LockSt) (htimers : s.timers = []) :
    lockStep s .fireTimer = s := by
  simp only [lockStep, htimers]

theorem lockStep_fireTimer_cons (s : LockSt) (ws : List Nat) (o : Outcome)
    (rest : List (List Nat × Outcome)) (htimers : s.timers = (ws, o) :: rest) :
    lockStep s .fireTimer =
      { s with timers := rest, promises := settleAll s.promises ws o } := by
  simp only [lockStep, htimers]

theorem lockInv_fireTimer (s : LockSt) (inv : LockInv s) :
    LockInv (lockStep s .fireTimer) := by
  rcases htimers : s.timers with _ | ⟨⟨ws, o⟩, rest⟩
  · rw [lockStep_fireTimer_nil s htimers]
    exact inv
  rw [lockStep_fireTimer_cons s ws o rest htimers]
  have hT : timersPids s.timers = ws ++ timersPids rest := by
    rw [htimers]
    simp [timersPids]
  have hnd : (((entries s).map Entry.pid ++ regsPids s.regs) ++
      (ws ++ timersPids rest)).Nodup := by
    have h0 := inv.pidsNodup
    rw [pidsOf, hT] at h0
    simpa [List.append_assoc] using h0
  have hdisj : List.Disjoint ((entries s).map Entry.pid ++ regsPids s.regs)
      (ws ++ timersPids rest) := List.disjoint_of_nodup_append hnd
  have hndwsTr : (ws ++ timersPids rest).Nodup := (List.nodup_append.mp hnd).2.1
  have hdisj2 : List.Disjoint ws (timersPids rest) :=
    List.disjoint_of_nodup_append hndwsTr
  have hnotws_of_front : ∀ p ∈ (entries s).map Entry.pid ++ regsPids s.regs, p ∉ ws := by
    intro p hp hmem
    exact hdisj hp (List.mem_append_left _ hmem)
  have hsub : List.Sublist ((entries s).map Entry.pid ++
      (regsPids s.regs ++ timersPids rest))
      ((entries s).map Entry.pid ++ (regsPids s.regs ++ (ws ++ timersPids rest))) := by
    refine List.Sublist.append_left ?_ _
    refine List.Sublist.append_left ?_ _
    exact List.sublist_append_right _ _
  have hpids_old : pidsOf s = (entries s).map Entry.pid ++
      (regsPids s.regs ++ (ws ++ timersPids rest)) := by
    rw [pidsOf, hT, List.append_assoc]
  refine
    { runLen := inv.runLen
      runEmpty := inv.runEmpty
      trigOrder := inv.trigOrder
      regKeys := inv.regKeys
      regKeysNodup := inv.regKeysNodup
      entryPend := ?_
      regPend := ?_
      timerPend := ?_
      pidFresh := ?_
      arrivalPidFresh := inv.arrivalPidFresh
      promFresh := ?_
      pidsNodup := ?_
      tidFresh := inv.tidFresh
      startsFresh := inv.startsFresh
      complFresh := inv.complFresh
      arrivalJoinedFresh := inv.arrivalJoinedFresh
      startsNodup := inv.startsNodup
      entryTidsNodup := inv.entryTidsNodup
      pendingNotStarted := inv.pendingNotStarted
      runningStarted := inv.runningStarted
      entryNotCompleted := inv.entryNotCompleted
      complNodup := inv.complNodup
      complStarted := inv.complStarted
      track := ?_ }
  · -- entryPend
    intro e' he'
    have hne : e'.pid ∉ ws :=
      hnotws_of_front e'.pid (List.mem_append_left _ (List.mem_map_of_mem Entry.pid he'))
    exact (settleAll_notMem ws s.promises o e'.pid hne).trans (inv.entryPend e' he')
  · -- regPend
    intro k' ws' hws' p hp
    have hne : p ∉ ws :=
      hnotws_of_front p (List.mem_append_right _ (mem_regsPids s.regs k' ws' p hws' hp))
    exact (settleAll_notMem ws s.promises o p hne).trans (inv.regPend k' ws' hws' p hp)
  · -- timerPend
    intro ws' o' hws' p hp
    have hmemT : p ∈ timersPids rest := mem_timersPids rest ws' o' p hws' hp
    have hne : p ∉ ws := fun hmem => hdisj2 hmem hmemT
    exact (settleAll_notMem ws s.promises o p hne).trans
      (inv.timerPend ws' o' (by rw [htimers]; exact List.mem_cons_of_mem _ hws') p hp)
  · -- pidFresh
    intro p hp
    simp only [pidsOf, List.append_assoc] at hp
    exact inv.pidFresh p (by rw [hpids_old]; exact hsub.subset hp)
  · -- promFresh
    intro p hp
    have hp' : s.nextPid ≤ p := hp
    have hne : p ∉ ws := by
      intro hmem
      have : p ∈ pidsOf s := by
        rw [hpids_old]
        exact List.mem_append_right _ (List.mem_append_right _ (List.mem_append_left _ hmem))
      exact absurd (inv.pidFresh p this) (by omega)
    exact (settleAll_notMem ws s.promises o p hne).trans (inv.promFresh p hp')
  · -- pidsNodup
    simp only [pidsOf, List.append_assoc]
    exact hsub.nodup (by rw [← hpids_old]; exact inv.pidsNodup)
  · -- track
    intro a ha
    rcases track_elim s a (inv.track a ha) with ⟨e', hsome, hp, ht, hw⟩ |
        ⟨hnone, o', hco, hrest'⟩
    · have hne : a.pid ∉ ws := by
        by_cases htr : a.trig = true
        · obtain ⟨hpid, -⟩ := ht htr
          obtain ⟨hmem', -⟩ := findTid_mem _ _ _ hsome
          exact hpid ▸ hnotws_of_front e'.pid
            (List.mem_append_left _ (List.mem_map_of_mem Entry.pid hmem'))
        · have hfalse : a.trig = false := by
            cases hv : a.trig
            · rfl
            · exact absurd hv htr
          rcases hw hfalse with ⟨k', ws', hek, hak, hlk', hmem''⟩
          exact hnotws_of_front a.pid
            (List.mem_append_right _ (mem_regsPids s.regs k' ws' a.pid hlk' hmem''))
      apply track_of_live _ _ e'
      · exact hsome
      · exact (settleAll_notMem ws s.promises o a.pid hne).trans hp
      · exact ht
      · exact hw
    · apply track_of_completed
      · exact hnone
      · refine ⟨o', hco, ?_⟩
        rcases hrest' with hsettled | ⟨ws', hbatch, hmem''⟩
        · left
          exact settleAll_settled ws s.promises o o' a.pid hsettled
        · rw [htimers] at hbatch
          rcases List.mem_cons.mp hbatch with h | h
          · obtain ⟨rfl, rfl⟩ : ws = ws' ∧ o = o' := by
              have h1 : ws' = ws := congrArg Prod.fst h
              have h2 : o' = o := congrArg Prod.snd h
              exact ⟨h1.symm, h2.symm⟩
            left
            have hpend' : s.promises a.pid = .pending :=
              inv.timerPend ws o (by rw [htimers]; exact List.mem_cons_self _ _) a.pid hmem''
            exact settleAll_mem ws s.promises o a.pid hmem'' hpend'
          · right
            exact ⟨ws', h, hmem''⟩

theorem lockInv_acquireKeyed_new (s : LockSt) (inv : LockInv s) (k : String)
    (hlk : lookupReg s.regs k = none) :
    LockInv (lockStep s (.acquire (some k))) := by
  rw [lockStep_acquireKeyed_new_eq s k hlk]
  have hknotin : k ∉ s.regs.map Prod.fst := (lookupReg_eq_none_iff s.regs k).mp hlk
  by_cases hc : s.running = [] ∧ s.pending = []
  · rw [if_pos hc]
    obtain ⟨hrun, hpend⟩ := hc
    have hentries : entries s = [] := by simp [entries, hrun, hpend]
    have hregsk : s.regs.map Prod.fst = [] := by
      have h0 := inv.regKeys
      rw [hentries] at h0
      exact h0.symm ▸ rfl
    have hregs : s.regs = [] := by simpa using hregsk
    have hps : pidsOf s = timersPids s.timers := by
      simp [pidsOf, hentries, hregs, regsPids]
    refine
      { runLen := by simp
        runEmpty := by simp
        trigOrder := ?_
        regKeys := by simp [entries, hpend, hregs]
        regKeysNodup := by simp [hregs]
        entryPend := ?_
        regPend := ?_
        timerPend := fun ws o hws p hp => inv.timerPend ws o hws p hp
        pidFresh := ?_
        arrivalPidFresh := ?_
        promFresh := fun p hp => inv.promFresh p (Nat.le_of_succ_le hp)
        pidsNodup := ?_
        tidFresh := ?_
        startsFresh := ?_
        complFresh := fun c hc => Nat.lt_succ_of_lt (inv.complFresh c hc)
        arrivalJoinedFresh := ?_
        startsNodup := ?_
        entryTidsNodup := by simp [entries, hpend]
        pendingNotStarted := by simp [hpend]
        runningStarted := ?_
        entryNotCompleted := ?_
        complNodup := inv.complNodup
        complStarted := fun c hc => List.mem_append_left _ (inv.complStarted c hc)
        track := ?_ }
    · -- trigOrder
      have h0 := inv.trigOrder
      rw [hpend] at h0
      simp only [trigJoined, List.filterMap_append] at h0 ⊢
      simp only [List.map_nil, List.append_nil] at h0
      simp [h0, hpend]
    · -- entryPend
      intro e he
      simp only [entries, hpend, List.append_nil, List.mem_singleton] at he
      subst he
      exact inv.promFresh s.nextPid le_rfl
    · -- regPend
      intro k' ws hws p hp
      rw [hregs, List.nil_append] at hws
      by_cases hk' : k' = k
      · subst hk'
        rw [lookupReg_cons_self] at hws
        obtain rfl : ([] : List Nat) = ws := by injection hws
        cases hp
      · rw [lookupReg_cons_ne _ _ _ _ (fun h => hk' h.symm)] at hws
        cases hws
    · -- pidFresh
      intro p hp
      simp only [pidsOf, entries, hpend, List.append_nil, List.map_cons, List.map_nil,
        List.singleton_append, List.cons_append, List.nil_append, regsPids, hregs,
        List.flatten_cons, List.flatten_nil, List.mem_cons, List.mem_append] at hp
      rcases hp with rfl | hp
      · exact Nat.lt_succ_self _
      · exact Nat.lt_succ_of_lt (inv.pidFresh p (by rw [hps]; simpa using hp))
    · -- arrivalPidFresh
      intro a ha
      rcases List.mem_append.mp ha with h | h
      · exact Nat.lt_succ_of_lt (inv.arrivalPidFresh a h)
      · simp only [List.mem_singleton] at h
        subst h
        exact Nat.lt_succ_self _
    · -- pidsNodup
      have hpn := inv.pidsNodup
      rw [hps] at hpn
      simp only [pidsOf, entries, hpend, List.append_nil, List.map_cons, List.map_nil,
        List.singleton_append, List.cons_append, List.nil_append, regsPids, hregs,
        List.flatten_cons, List.flatten_nil]
      refine List.Nodup.cons ?_ (by simpa using hpn)
      intro hmem
      have := inv.pidFresh s.nextPid (by rw [hps]; simpa using hmem)
      exact absurd this (lt_irrefl _)
    · -- tidFresh
      intro e he
      simp only [entries, hpend, List.append_nil, List.mem_singleton] at he
      subst he
      exact Nat.lt_succ_self _
    · -- startsFresh
      intro t ht
      rcases List.mem_append.mp ht with h | h
      · exact Nat.lt_succ_of_lt (inv.startsFresh t h)
      · simp only [List.mem_singleton] at h
        subst h
        exact Nat.lt_succ_self _
    · -- arrivalJoinedFresh
      intro a ha
      rcases List.mem_append.mp ha with h | h
      · exact Nat.lt_succ_of_lt (inv.arrivalJoinedFresh a h)
      · simp only [List.mem_singleton] at h
        subst h
        exact Nat.lt_succ_self _
    · -- startsNodup
      refine nodup_snoc _ _ inv.startsNodup ?_
      intro hmem
      exact absurd (inv.startsFresh s.nextTid hmem) (lt_irrefl _)
    · -- runningStarted
      intro e he
      simp only [List.mem_singleton] at he
      subst he
      simp
    · -- entryNotCompleted
      intro e he c hcm
      simp only [entries, hpend, List.append_nil, List.mem_singleton] at he
      subst he
      exact fun h => absurd (h ▸ inv.complFresh c hcm) (lt_irrefl _)
    · -- track
      intro a ha
      rcases List.mem_append.mp ha with h | h
      · rcases track_elim s a (inv.track a h) with ⟨e, hsome, _⟩ | ⟨_, o, hco, hrest⟩
        · exfalso
          rw [epEntry, hentries] at hsome
          simp [findTid] at hsome
        · refine track_of_completed _ _ ?_ ⟨o, hco, hrest⟩
          rw [epEntry, findTid_eq_none]
          intro e he
          simp only [entries, hpend, List.append_nil, List.mem_singleton] at he
          subst he
          have := inv.arrivalJoinedFresh a h
          show s.nextTid ≠ a.joined
          omega
      · simp only [List.mem_singleton] at h
        subst h
        refine track_of_live _ _ (Entry.mk s.nextTid (some k) s.nextPid) ?_ ?_ ?_ ?_
        · rw [epEntry]
          simp only [entries, hpend, List.append_nil]
          exact findTid_cons_self _ _
        · exact inv.promFresh s.nextPid le_rfl
        · exact fun _ => ⟨rfl, rfl⟩
        · intro hf
          cases hf
  · rw [if_neg hc]
    have hrn : s.running ≠ [] := by
      intro h0
      exact hc ⟨h0, inv.runEmpty h0⟩
    have hregsPids : regsPids (s.regs ++ [(k, [])]) = regsPids s.regs := by
      simp [regsPids]
    have hperm : List.Perm
        (pidsOf { s with regs := s.regs ++ [(k, [])],
                         arrivals := s.arrivals ++ [Arrival.mk s.nextPid (some k) true s.nextTid],
                         nextTid := s.nextTid + 1, nextPid := s.nextPid + 1,
                         pending := s.pending ++ [Entry.mk s.nextTid (some k) s.nextPid] })
        (s.nextPid :: pidsOf s) := by
      simp only [pidsOf, entries, List.map_append, List.map_cons, List.map_nil,
        List.append_assoc, List.singleton_append, hregsPids]
      exact perm_pull_mid _ _ _ _
    refine
      { runLen := inv.runLen
        runEmpty := fun h0 => absurd h0 hrn
        trigOrder := ?_
        regKeys := ?_
        regKeysNodup := ?_
        entryPend := ?_
        regPend := ?_
        timerPend := fun ws o hws p hp => inv.timerPend ws o hws p hp
        pidFresh := ?_
        arrivalPidFresh := ?_
        promFresh := fun p hp => inv.promFresh p (Nat.le_of_succ_le hp)
        pidsNodup := ?_
        tidFresh := ?_
        startsFresh := fun t ht => Nat.lt_succ_of_lt (inv.startsFresh t ht)
        complFresh := fun c hc => Nat.lt_succ_of_lt (inv.complFresh c hc)
        arrivalJoinedFresh := ?_
        startsNodup := inv.startsNodup
        entryTidsNodup := ?_
        pendingNotStarted := ?_
        runningStarted := inv.runningStarted
        entryNotCompleted := ?_
        complNodup := inv.complNodup
        complStarted := inv.complStarted
        track := ?_ }
    · -- trigOrder
      have h0 := inv.trigOrder
      simp only [trigJoined, List.filterMap_append] at h0 ⊢
      simp [h0, List.append_assoc]
    · -- regKeys
      have h0 := inv.regKeys
      simp only [entries, List.filterMap_append, List.map_append] at h0 ⊢
      simp [← List.append_assoc, h0]
    · -- regKeysNodup
      rw [List.map_append]
      exact nodup_snoc _ _ inv.regKeysNodup (by simpa using hknotin)
    · -- entryPend
      intro e he
      simp only [entries, ← List.append_assoc, List.mem_append, List.mem_singleton] at he
      rcases he with he | he
      · exact inv.entryPend e (by simpa [entries] using he)
      · subst he
        exact inv.promFresh s.nextPid le_rfl
    · -- regPend
      intro k' ws hws p hp
      rcases hl : lookupReg s.regs k' with _ | ws'
      · rw [lookupReg_append_right _ _ _ hl] at hws
        by_cases hk' : k' = k
        · subst hk'
          rw [lookupReg_cons_self] at hws
          obtain rfl : ([] : List Nat) = ws := by injection hws
          cases hp
        · rw [lookupReg_cons_ne _ _ _ _ (fun h => hk' h.symm)] at hws
          cases hws
      · rw [lookupReg_append_left _ _ _ _ hl] at hws
        obtain rfl : ws' = ws := by injection hws
        exact inv.regPend k' _ hl p hp
    · -- pidFresh
      intro p hp
      have := (hperm.mem_iff).mp hp
      rcases List.mem_cons.mp this with rfl | hmem
      · exact Nat.lt_succ_self _
      · exact Nat.lt_succ_of_lt (inv.pidFresh p hmem)
    · -- arrivalPidFresh
      intro a ha
      rcases List.mem_append.mp ha with h | h
      · exact Nat.lt_succ_of_lt (inv.arrivalPidFresh a h)
      · simp only [List.mem_singleton] at h
        subst h
        exact Nat.lt_succ_self _
    · -- pidsNodup
      refine (hperm.nodup_iff).mpr (List.Nodup.cons ?_ inv.pidsNodup)
      intro hmem
      exact absurd (inv.pidFresh s.nextPid hmem) (lt_irrefl _)
    · -- tidFresh
      intro e he
      simp only [entries, ← List.append_assoc, List.mem_append, List.mem_singleton] at he
      rcases he with he | he
      · exact Nat.lt_succ_of_lt (inv.tidFresh e (by simpa [entries] using he))
      · subst he
        exact Nat.lt_succ_self _
    · -- arrivalJoinedFresh
      intro a ha
      rcases List.mem_append.mp ha with h | h
      · exact Nat.lt_succ_of_lt (inv.arrivalJoinedFresh a h)
      · simp only [List.mem_singleton] at h
        subst h
        exact Nat.lt_succ_self _
    · -- entryTidsNodup
      have h0 := inv.entryTidsNodup
      have hper : List.Perm
          ((entries { s with regs := s.regs ++ [(k, [])],
                             arrivals := s.arrivals ++ [Arrival.mk s.nextPid (some k) true s.nextTid],
                             nextTid := s.nextTid + 1, nextPid := s.nextPid + 1,
                             pending := s.pending ++ [Entry.mk s.nextTid (some k) s.nextPid] }).map
            Entry.tid)
          (s.nextTid :: (entries s).map Entry.tid) := by
        simp only [entries, List.map_append, List.map_cons, List.map_nil, List.append_assoc,
          List.singleton_append]
        have := perm_pull_mid (s.running.map Entry.tid) (s.pending.map Entry.tid) [] s.nextTid
        simpa using this
      refine (hper.nodup_iff).mpr (List.Nodup.cons ?_ h0)
      intro hmem
      rcases List.mem_map.mp hmem with ⟨e, he, htid⟩
      exact absurd (htid ▸ inv.tidFresh e he) (lt_irrefl _)
    · -- pendingNotStarted
      intro e he
      rcases List.mem_append.mp he with h | h
      · exact inv.pendingNotStarted e h
      · simp only [List.mem_singleton] at h
        subst h
        intro hmem
        exact absurd (inv.startsFresh s.nextTid hmem) (lt_irrefl _)
    · -- entryNotCompleted
      intro e he c hcm
      simp only [entries, ← List.append_assoc, List.mem_append, List.mem_singleton] at he
      rcases he with he | he
      · exact inv.entryNotCompleted e (by simpa [entries] using he) c hcm
      · subst he
        exact fun h => absurd (h ▸ inv.complFresh c hcm) (lt_irrefl _)
    · -- track
      intro a ha
      have hfind : ∀ t, t < s.nextTid →
          findTid (entries { s with
              regs := s.regs ++ [(k, [])],
              arrivals := s.arrivals ++ [Arrival.mk s.nextPid (some k) true s.nextTid],
              nextTid := s.nextTid + 1, nextPid := s.nextPid + 1,
              pending := s.pending ++ [Entry.mk s.nextTid (some k) s.nextPid] }) t =
            findTid (entries s) t := by
        intro t ht
        simp only [entries, ← List.append_assoc]
        rw [findTid_append]
        rcases hf : findTid (s.running ++ s.pending) t with _ | e
        · simp only [Option.none_or]
          rw [findTid_eq_none]
          intro e he
          simp only [List.mem_singleton] at he
          subst he
          show s.nextTid ≠ t
          omega
        · rfl
      rcases List.mem_append.mp ha with h | h
      · have hj := inv.arrivalJoinedFresh a h
        rcases track_elim s a (inv.track a h) with ⟨e, hsome, hp, ht, hw⟩ | ⟨hnone, o, hco, hrest⟩
        · refine track_of_live _ _ e ?_ hp ht ?_
          · rw [epEntry, hfind a.joined hj]
            exact hsome
          · intro hf
            rcases hw hf with ⟨k', ws, hek, hak, hlk', hmem⟩
            exact ⟨k', ws, hek, hak, lookupReg_append_left _ _ _ _ hlk', hmem⟩
        · refine track_of_completed _ _ ?_ ⟨o, hco, hrest⟩
          rw [epEntry, hfind a.joined hj]
          exact hnone
      · simp only [List.mem_singleton] at h
        subst h
        refine track_of_live _ _ (Entry.mk s.nextTid (some k) s.nextPid) ?_ ?_ ?_ ?_
        · rw [epEntry]
          simp only [entries, ← List.append_assoc]
          rw [findTid_append]
          have : findTid (s.running ++ s.pending) s.nextTid = none := by
            rw [findTid_eq_none]
            intro e he
            exact Nat.ne_of_lt (inv.tidFresh e (by simpa [entries] using he))
          rw [this]
          simp only [Option.none_or]
          exact findTid_cons_self _ _
        · exact inv.promFresh s.nextPid le_rfl
        · exact fun _ => ⟨rfl, rfl⟩
        · intro hf
          cases hf

theorem lockInv_init : LockInv lockInit := by
  refine
    { runLen := by simp [lockInit]
      runEmpty := fun _ => rfl
      trigOrder := rfl
      regKeys := rfl
      regKeysNodup := List.nodup_nil
      entryPend := by intro e he; cases he
      regPend := by intro k ws h p hp; cases h
      timerPend := by intro ws o h p hp; cases h
      pidFresh := by intro p hp; cases hp
      arrivalPidFresh := by intro a ha; cases ha
      promFresh := fun p _ => rfl
      pidsNodup := List.nodup_nil
      tidFresh := by intro e he; cases he
      startsFresh := by intro t ht; cases ht
      complFresh := by intro c hc; cases hc
      arrivalJoinedFresh := by intro a ha; cases ha
      startsNodup := List.nodup_nil
      entryTidsNodup := List.nodup_nil
      pendingNotStarted := by intro e he; cases he
      runningStarted := by intro e he; cases he
      entryNotCompleted := by intro e he; cases he
      complNodup := List.nodup_nil
      complStarted := by intro c hc; cases hc
      track := by intro a ha; cases ha }

theorem lockInv_step (s : LockSt) (inv : LockInv s) (ev : LEv) :
    LockInv (lockStep s ev) := by
  rcases ev with key | o | _
  · rcases key with _ | k
    · exact lockInv_acquireNone s inv
    · rcases hlk : lookupReg s.regs k with _ | ws
      · exact lockInv_acquireKeyed_new s inv k hlk
      · exact lockInv_acquireKeyed_wait s inv k ws hlk
  · exact lockInv_complete s inv o
  · exact lockInv_fireTimer s inv

theorem lockInv_runFrom (s : LockSt) (inv : LockInv s) (es : List LEv) :
    LockInv (es.foldl lockStep s) := by
  induction es generalizing s with
  | nil => exact inv
  | cons e rest ih => exact ih (lockStep s e) (lockInv_step s inv e)

theorem lockInv_run (es : List LEv) : LockInv (lockRun es) :=
  lockInv_runFrom lockInit lockInv_init es

theorem lockRun_append (es es' : List LEv) :
    lockRun (es ++ es') = es'.foldl lockStep (lockRun es) := by
  rw [lockRun, lockRun, List.foldl_append]

/-- A settled promise stays settled across any step. -/
theorem lockStep_preserves_settled (s : LockSt) (inv : LockInv s) (ev : LEv)
    (p : Nat) (o : Outcome) (h : s.promises p = .settled o) :
    (lockStep s ev).promises p = .settled o := by
  rcases ev with key | o' | _
  · rcases key with _ | k
    · rw [lockStep_acquireNone_eq]
      by_cases hc : s.running = [] ∧ s.pending = []
      · rw [if_pos hc]; exact h
      · rw [if_neg hc]; exact h
    · rcases hlk : lookupReg s.regs k with _ | ws
      · rw [lockStep_acquireKeyed_new_eq s k hlk]
        by_cases hc : s.running = [] ∧ s.pending = []
        · rw [if_pos hc]; exact h
        · rw [if_neg hc]; exact h
      · rw [lockStep_acquireKeyed_wait_eq s k ws hlk]; exact h
  · rcases hrun : s.running with _ | ⟨e, rest⟩
    · rw [lockStep_complete_nil s o' hrun]; exact h
    · have hrest : rest = [] := by
        have h1 := inv.runLen
        rw [hrun] at h1
        simp only [List.length_cons] at h1
        exact List.length_eq_zero.mp (by omega)
      subst hrest
      rcases hkeyc : e.key with _ | k
      · rcases hpendc : s.pending with _ | ⟨e2, ps⟩
        · rw [lockStep_complete_none_nil s o' e hrun hkeyc hpendc]
          exact settleP_settled _ _ _ _ _ h
        · rw [lockStep_complete_none_cons s o' e e2 ps hrun hkeyc hpendc]
          exact settleP_settled _ _ _ _ _ h
      · rcases hpendc : s.pending with _ | ⟨e2, ps⟩
        · rw [lockStep_complete_some_nil s o' e k hrun hkeyc hpendc]
          exact settleP_settled _ _ _ _ _ h
        · rw [lockStep_complete_some_cons s o' e e2 k ps hrun hkeyc hpendc]
          exact settleP_settled _ _ _ _ _ h
  · rcases htimers : s.timers with _ | ⟨⟨ws, o''⟩, rest⟩
    · rw [lockStep_fireTimer_nil s htimers]; exact h
    · rw [lockStep_fireTimer_cons s ws o'' rest htimers]
      exact settleAll_settled _ _ _ _ _ h

theorem lockRunFrom_preserves_settled (es : List LEv) (s : LockSt) (inv : LockInv s)
    (p : Nat) (o : Outcome) (h : s.promises p = .settled o) :
    (es.foldl lockStep s).promises p = .settled o := by
  induction es generalizing s with
  | nil => exact h
  | cons e rest ih =>
      exact ih (lockStep s e) (lockInv_step s inv e)
        (lockStep_preserves_settled s inv e p o h)

/-- Every started task id remains in the `starts` log across any step. -/
theorem lockStep_starts_mono (s : LockSt) (inv : LockInv s) (ev : LEv) (t : Nat)
    (ht : t ∈ s.starts) : t ∈ (lockStep s ev).starts := by
  rcases ev with key | o' | _
  · rcases key with _ | k
    · rw [lockStep_acquireNone_eq]
      by_cases hc : s.running = [] ∧ s.pending = []
      · rw [if_pos hc]; exact List.mem_append_left _ ht
      · rw [if_neg hc]; exact ht
    · rcases hlk : lookupReg s.regs k with _ | ws
      · rw [lockStep_acquireKeyed_new_eq s k hlk]
        by_cases hc : s.running = [] ∧ s.pending = []
        · rw [if_pos hc]; exact List.mem_append_left _ ht
        · rw [if_neg hc]; exact ht
      · rw [lockStep_acquireKeyed_wait_eq s k ws hlk]; exact ht
  · rcases hrun : s.running with _ | ⟨e, rest⟩
    · rw [lockStep_complete_nil s o' hrun]; exact ht
    · have hrest : rest = [] := by
        have h1 := inv.runLen
        rw [hrun] at h1
        simp only [List.length_cons] at h1
        exact List.length_eq_zero.mp (by omega)
      subst hrest
      rcases hkeyc : e.key with _ | k
      · rcases hpendc : s.pending with _ | ⟨e2, ps⟩
        · rw [lockStep_complete_none_nil s o' e hrun hkeyc hpendc]; exact ht
        · rw [lockStep_complete_none_cons s o' e e2 ps hrun hkeyc hpendc]
          exact List.mem_append_left _ ht
      · rcases hpendc : s.pending with _ | ⟨e2, ps⟩
        · rw [lockStep_complete_some_nil s o' e k hrun hkeyc hpendc]; exact ht
        · rw [lockStep_complete_some_cons s o' e e2 k ps hrun hkeyc hpendc]
          exact List.mem_append_left _ ht
  · rcases htimers : s.timers with _ | ⟨⟨ws, o''⟩, rest⟩
    · rw [lockStep_fireTimer_nil s htimers]; exact ht
    · rw [lockStep_fireTimer_cons s ws o'' rest htimers]; exact ht

/-- Feeding enough `complete` events drains the whole chain: every task that
was started or queued ends up started, whatever the outcomes were. -/
theorem lock_progress_from (os : List Outcome) (s : LockSt) (inv : LockInv s)
    (h : s.running.length + s.pending.length ≤ os.length) (t : Nat)
    (ht : t ∈ s.starts ++ s.pending.map Entry.tid) :
    t ∈ ((os.map LEv.complete).foldl lockStep s).starts := by
  induction os generalizing s with
  | nil =>
    simp only [List.length_nil, Nat.le_zero, Nat.add_eq_zero] at h
    have hpend : s.pending = [] := List.length_eq_zero.mp h.2
    rw [hpend] at ht
    simpa using ht
  | cons o os ih =>
    simp only [List.length_cons] at h
    simp only [List.map_cons, List.foldl_cons]
    rcases hrun : s.running with _ | ⟨e, rest⟩
    · have hpend : s.pending = [] := inv.runEmpty hrun
      rw [lockStep_complete_nil s o hrun]
      exact ih s inv (by rw [hrun, hpend]; simp) ht
    · have hrest : rest = [] := by
        have h1 := inv.runLen
        rw [hrun] at h1
        simp only [List.length_cons] at h1
        exact List.length_eq_zero.mp (by omega)
      subst hrest
      rw [hrun] at h
      simp only [List.length_cons, List.length_nil] at h
      have hinv' := lockInv_step s inv (.complete o)
      rcases hkeyc : e.key with _ | k
      · rcases hpendc : s.pending with _ | ⟨e2, ps⟩
        · rw [lockStep_complete_none_nil s o e hrun hkeyc hpendc] at hinv' ⊢
          exact ih _ hinv' (by simp [hpendc]) ht
        · rw [lockStep_complete_none_cons s o e e2 ps hrun hkeyc hpendc] at hinv' ⊢
          refine ih _ hinv' ?_ ?_
          · have hlen : s.pending.length = ps.length + 1 := by rw [hpendc]; simp
            simp only [List.length_cons, List.length_nil]
            omega
          · rw [hpendc] at ht
            simp only [List.map_cons] at ht
            rw [List.append_cons] at ht
            exact ht
      · rcases hpendc : s.pending with _ | ⟨e2, ps⟩
        · rw [lockStep_complete_some_nil s o e k hrun hkeyc hpendc] at hinv' ⊢
          exact ih _ hinv' (by simp [hpendc]) ht
        · rw [lockStep_complete_some_cons s o e e2 k ps hrun hkeyc hpendc] at hinv' ⊢
          refine ih _ hinv' ?_ ?_
          · have hlen : s.pending.length = ps.length + 1 := by rw [hpendc]; simp
            simp only [List.length_cons, List.length_nil]
            omega
          · rw [hpendc] at ht
            simp only [List.map_cons] at ht
            rw [List.append_cons] at ht
            exact ht

/-- Firing all currently queued timers settles every promise captured in a
timer batch with the batch's outcome. -/
theorem lock_drain_settles : ∀ (n : Nat) (s : LockSt), LockInv s → s.timers.length = n →
    ∀ p o ws, (ws, o) ∈ s.timers → p ∈ ws →
    ((List.replicate n LEv.fireTimer).foldl lockStep s).promises p = .settled o := by
  intro n
  induction n with
  | zero =>
    intro s inv hlen p o ws hb hp
    rcases htimers : s.timers with _ | ⟨x, rest⟩
    · rw [htimers] at hb
      cases hb
    · rw [htimers] at hlen
      simp at hlen
  | succ m ih =>
    intro s inv hlen p o ws hb hp
    rcases htimers : s.timers with _ | ⟨⟨ws0, o0⟩, rest⟩
    · rw [htimers] at hb
      cases hb
    have hrest_len : rest.length = m := by
      rw [htimers] at hlen
      simpa using hlen
    rw [List.replicate_succ, List.foldl_cons,
      lockStep_fireTimer_cons s ws0 o0 rest htimers]
    have hinv' := lockInv_step s inv .fireTimer
    rw [lockStep_fireTimer_cons s ws0 o0 rest htimers] at hinv'
    rw [htimers] at hb
    rcases List.mem_cons.mp hb with h | h
    · obtain ⟨rfl, rfl⟩ : ws0 = ws ∧ o0 = o := by
        have h1 : ws = ws0 := congrArg Prod.fst h
        have h2 : o = o0 := congrArg Prod.snd h
        exact ⟨h1.symm, h2.symm⟩
      have hpend : s.promises p = .pending :=
        inv.timerPend ws0 o0 (by rw [htimers]; exact List.mem_cons_self _ _) p hp
      have hsettled : settleAll s.promises ws0 o0 p = .settled o0 :=
        settleAll_mem ws0 s.promises o0 p hp hpend
      exact lockRunFrom_preserves_settled _ _ hinv' p o0 hsettled
    · exact ih _ hinv' hrest_len p o ws h hp

/-- For every completed episode, the chain ran the task exactly once and
every caller that joined the episode is settled with the task's outcome
once the queued timers have fired. -/
theorem lock_episode_outcome (es : List LEv) (t : Nat) (o : Outcome)
    (hc : (t, o) ∈ (lockRun es).completions) :
    (lockRun es).starts.count t = 1 ∧
    ∀ a ∈ (lockRun es).arrivals, a.joined = t →
      (lockDrain es).promises a.pid = .settled o := by
  have inv := lockInv_run es
  have htstart : t ∈ (lockRun es).starts := inv.complStarted (t, o) hc
  refine ⟨List.count_eq_one_of_mem inv.startsNodup htstart, ?_⟩
  intro a ha hj
  rcases track_elim _ a (inv.track a ha) with ⟨e', hsome, -, -, -⟩ |
      ⟨-, o', hco, hrest'⟩
  · exfalso
    obtain ⟨hmem', htid'⟩ := findTid_mem _ _ _ hsome
    exact inv.entryNotCompleted e' hmem' (t, o) hc (by rw [htid', hj])
  · have ho : o' = o := by
      rw [hj] at hco
      have hnd := inv.complNodup
      -- two completion entries with the same task id coincide
      rcases List.mem_iff_append.mp hco with ⟨l1, l2, hsplit⟩
      rw [hsplit] at hc hnd
      rcases List.mem_append.mp hc with h | h
      · exfalso
        simp only [List.map_append, List.map_cons] at hnd
        have hdisj := List.disjoint_of_nodup_append hnd
        exact hdisj (List.mem_map_of_mem Prod.fst h) (by simp)
      · rcases List.mem_cons.mp h with h' | h'
        · exact (congrArg Prod.snd h').symm
        · exfalso
          simp only [List.map_append, List.map_cons] at hnd
          have h2 := (List.nodup_append.mp hnd).2.1
          have := (List.nodup_cons.mp h2).1
          exact this (List.mem_map_of_mem Prod.fst h')
    subst ho
    rw [lockDrain, lockRun_append]
    rcases hrest' with hsettled | ⟨ws', hbatch, hmem''⟩
    · exact lockRunFrom_preserves_settled _ _ inv a.pid o' hsettled
    · exact lock_drain_settles (lockRun es).timers.length (lockRun es) inv rfl
        a.pid o' ws' hbatch hmem''

/-! ### Claim theorems for `Lock.acquire` -/

/-- **C1.** For every sequence of `acquire` calls on the scheduler, keyed or
unkeyed, and every interleaving of their completions (every event list
`es`, hence every reachable instant), at most one task execution is in
flight, and the executions that have started did so in the arrival order
of the `acquire` calls that scheduled them: the start log is a leading
piece of the trigger-arrival order, the remainder being the calls still
queued on the chain.  In particular no two executions ever overlap,
whatever the keys. -/
theorem claim_lock_serialization (es : List LEv) :
    (lockRun es).running.length ≤ 1 ∧
    ∃ queued, trigJoined (lockRun es) = (lockRun es).starts ++ queued := by
  have inv := lockInv_run es
  exact ⟨inv.runLen, ⟨(lockRun es).pending.map Entry.tid, inv.trigOrder⟩⟩

/-- **C2.** Whenever the task `t` of a coalescing episode completes with
outcome `o` (in particular for `n ≥ 1` keyed `acquire` calls that all
arrived while the key's registration was open — exactly the calls logged
with `joined = t`), the underlying task was executed exactly once, and
after the already-scheduled timer callbacks run, every one of those
callers' promises is settled with that single execution's outcome. -/
theorem claim_lock_keyed_coalescing (es : List LEv) (t : Nat) (o : Outcome)
    (hc : (t, o) ∈ (lockRun es).completions) :
    (lockRun es).starts.count t = 1 ∧
    ∀ a ∈ (lockRun es).arrivals, a.joined = t →
      (lockDrain es).promises a.pid = .settled o :=
  lock_episode_outcome es t o hc

/-- Witness for C2: three `acquire("k")` calls coalesce into one execution
(task 0), and after the completion and the queued timer, all three callers'
promises (ids 0, 1, 2) hold the single outcome `ok 5`. -/
theorem claim_lock_keyed_coalescing_witness :
    (0, Outcome.ok 5) ∈ (lockRun [.acquire (some "k"), .acquire (some "k"),
      .acquire (some "k"), .complete (.ok 5)]).completions ∧
    ((lockRun [.acquire (some "k"), .acquire (some "k"), .acquire (some "k"),
        .complete (.ok 5)]).starts.count 0 = 1 ∧
     ∀ a ∈ (lockRun [.acquire (some "k"), .acquire (some "k"), .acquire (some "k"),
        .complete (.ok 5)]).arrivals, a.joined = 0 →
      (lockDrain [.acquire (some "k"), .acquire (some "k"), .acquire (some "k"),
        .complete (.ok 5)]).promises a.pid = .settled (.ok 5)) :=
  ⟨by decide, claim_lock_keyed_coalescing _ 0 (.ok 5) (by decide)⟩

/-- **C4 counterexample.** The claim says the `KeyRegistration` is deleted
only after all of its waiters are settled.  In the run of
`acquire("k"); acquire("k"); complete(ok 0)` the completion deletes the
registration synchronously (the lookup is already `none`) while the
waiter's promise (id 1) is still pending, only scheduled in a
`setTimeout` batch.  The deletion therefore happens before the waiters
settle, refuting the claim at this concrete input. -/
theorem claim_registration_deleted_early_cex :
    lookupReg (lockRun [.acquire (some "k"), .acquire (some "k"),
      .complete (.ok 0)]).regs "k" = none ∧
    (lockRun [.acquire (some "k"), .acquire (some "k"),
      .complete (.ok 0)]).promises 1 = .pending ∧
    (lockRun [.acquire (some "k"), .acquire (some "k"),
      .complete (.ok 0)]).timers = [([1], .ok 0)] := by
  refine ⟨?_, ?_, ?_⟩ <;> decide

/-- **C4 (amended).** At every instant at most one `KeyRegistration` exists
per coalescing key (the waiter-map keys are duplicate-free); the
registration is created as soon as the first `acquire` for an unregistered
key arrives; the resolution of its accumulated waiters is scheduled on a
later tick — every waiter promise captured in a queued timer batch is
still pending, so resolution is never synchronous; and when the key's run
settles, the registration is deleted immediately — after the waiter batch
has been scheduled but before the waiters settle. -/
theorem claim_registration_lifecycle_amended (es : List LEv) :
    ((lockRun es).regs.map Prod.fst).Nodup ∧
    (∀ ws o, (ws, o) ∈ (lockRun es).timers → ∀ p ∈ ws,
        (lockRun es).promises p = .pending) ∧
    (∀ k, lookupReg (lockRun es).regs k = none →
        lookupReg (lockStep (lockRun es) (.acquire (some k))).regs k = some []) ∧
    (∀ e rest o k, (lockRun es).running = e :: rest → e.key = some k →
        lookupReg (lockStep (lockRun es) (.complete o)).regs k = none ∧
        ((lookupReg (lockRun es).regs k).getD [], o) ∈
          (lockStep (lockRun es) (.complete o)).timers ∧
        ∀ p ∈ (lookupReg (lockRun es).regs k).getD [],
          (lockStep (lockRun es) (.complete o)).promises p = .pending) := by
  have inv := lockInv_run es
  refine ⟨inv.regKeysNodup, inv.timerPend, ?_, ?_⟩
  · intro k hlk
    rw [lockStep_acquireKeyed_new_eq (lockRun es) k hlk]
    have hnone' : lookupReg (lockRun es).regs k = none := hlk
    by_cases hc : (lockRun es).running = [] ∧ (lockRun es).pending = []
    · rw [if_pos hc]
      show lookupReg ((lockRun es).regs ++ [(k, [])]) k = some []
      rw [lookupReg_append_right _ _ _ hnone', lookupReg_cons_self]
    · rw [if_neg hc]
      show lookupReg ((lockRun es).regs ++ [(k, [])]) k = some []
      rw [lookupReg_append_right _ _ _ hnone', lookupReg_cons_self]
  · intro e rest o k hrun hkey
    have hrest : rest = [] := by
      have h1 := inv.runLen
      rw [hrun] at h1
      simp only [List.length_cons] at h1
      exact List.length_eq_zero.mp (by omega)
    subst hrest
    have hinv' := lockInv_step (lockRun es) inv (.complete o)
    rcases hpendc : (lockRun es).pending with _ | ⟨e2, ps⟩
    · rw [lockStep_complete_some_nil (lockRun es) o e k hrun hkey hpendc] at hinv' ⊢
      refine ⟨lookupReg_eraseReg_self _ _, ?_, ?_⟩
      · exact List.mem_append_right _ (by simp)
      · intro p hp
        exact hinv'.timerPend _ o (List.mem_append_right _ (by simp)) p hp
    · rw [lockStep_complete_some_cons (lockRun es) o e e2 k ps hrun hkey hpendc]
        at hinv' ⊢
      refine ⟨lookupReg_eraseReg_self _ _, ?_, ?_⟩
      · exact List.mem_append_right _ (by simp)
      · intro p hp
        exact hinv'.timerPend _ o (List.mem_append_right _ (by simp)) p hp

/-- Witness for the amended C4, at the run `acquire("k"); acquire("k")`:
the waiter map has one duplicate-free key, completing the keyed run deletes
the registration while the scheduled batch `([1], ok 3)` is queued and its
waiter promise 1 is still pending. -/
theorem claim_registration_lifecycle_amended_witness :
    (((lockRun [.acquire (some "k"), .acquire (some "k")]).regs.map
        Prod.fst).Nodup) ∧
    lookupReg (lockStep (lockRun [.acquire (some "k"), .acquire (some "k")])
      (.complete (.ok 3))).regs "k" = none ∧
    (([1] : List Nat), Outcome.ok 3) ∈ (lockStep
      (lockRun [.acquire (some "k"), .acquire (some "k")])
      (.complete (.ok 3))).timers ∧
    (lockStep (lockRun [.acquire (some "k"), .acquire (some "k")])
      (.complete (.ok 3))).promises 1 = .pending := by
  have h := claim_registration_lifecycle_amended [.acquire (some "k"), .acquire (some "k")]
  have h4 := h.2.2.2 (Entry.mk 0 (some "k") 0) [] (.ok 3) "k" (by decide) (by decide)
  refine ⟨h.1, h4.1, ?_, ?_⟩
  · have := h4.2.1
    simpa using this
  · refine h4.2.2 1 ?_
    decide

/-- **C5.** If the single run of a coalescing episode rejects (task `t`
completes with `err r`), the triggering caller's promise and every
waiter's promise for that episode reject with the same reason once the
scheduled timers fire; the task ran exactly once; completing a keyed run
clears the key's registration exactly as on success; and a subsequent
`acquire` on a key with no registration opens a fresh registration and
appends a fresh chain entry (a new execution) for it.  No failure is
swallowed. -/
theorem claim_lock_rejection_propagation (es : List LEv) (t r : Nat)
    (hc : (t, Outcome.err r) ∈ (lockRun es).completions) :
    ((lockRun es).starts.count t = 1 ∧
     ∀ a ∈ (lockRun es).arrivals, a.joined = t →
        (lockDrain es).promises a.pid = .settled (.err r)) ∧
    (∀ e rest o k, (lockRun es).running = e :: rest → e.key = some k →
        lookupReg (lockStep (lockRun es) (.complete o)).regs k = none) ∧
    (∀ k, lookupReg (lockRun es).regs k = none →
        lookupReg (lockStep (lockRun es) (.acquire (some k))).regs k = some [] ∧
        ∃ e2 ∈ entries (lockStep (lockRun es) (.acquire (some k))),
          e2.key = some k ∧ e2.tid = (lockRun es).nextTid) := by
  have inv := lockInv_run es
  refine ⟨lock_episode_outcome es t (.err r) hc, ?_, ?_⟩
  · intro e rest o k hrun hkey
    have hrest : rest = [] := by
      have h1 := inv.runLen
      rw [hrun] at h1
      simp only [List.length_cons] at h1
      exact List.length_eq_zero.mp (by omega)
    subst hrest
    rcases hpendc : (lockRun es).pending with _ | ⟨e2, ps⟩
    · rw [lockStep_complete_some_nil (lockRun es) o e k hrun hkey hpendc]
      exact lookupReg_eraseReg_self _ _
    · rw [lockStep_complete_some_cons (lockRun es) o e e2 k ps hrun hkey hpendc]
      exact lookupReg_eraseReg_self _ _
  · intro k hlk
    rw [lockStep_acquireKeyed_new_eq (lockRun es) k hlk]
    by_cases hc2 : (lockRun es).running = [] ∧ (lockRun es).pending = []
    · rw [if_pos hc2]
      refine ⟨?_, Entry.mk (lockRun es).nextTid (some k) (lockRun es).nextPid, ?_, rfl, rfl⟩
      · show lookupReg ((lockRun es).regs ++ [(k, [])]) k = some []
        rw [lookupReg_append_right _ _ _ hlk, lookupReg_cons_self]
      · show _ ∈ [Entry.mk (lockRun es).nextTid (some k) (lockRun es).nextPid] ++ _
        simp
    · rw [if_neg hc2]
      refine ⟨?_, Entry.mk (lockRun es).nextTid (some k) (lockRun es).nextPid, ?_, rfl, rfl⟩
      · show lookupReg ((lockRun es).regs ++ [(k, [])]) k = some []
        rw [lookupReg_append_right _ _ _ hlk, lookupReg_cons_self]
      · show _ ∈ (lockRun es).running ++ ((lockRun es).pending ++ [_])
        simp

/-- Witness for C5: two `acquire("k")` calls whose run rejects with reason
7; both callers' promises are rejected with the same reason after the
timer fires, and a fresh `acquire("k")` afterwards opens a new
registration with a fresh chain entry. -/
theorem claim_lock_rejection_propagation_witness :
    (0, Outcome.err 7) ∈ (lockRun [.acquire (some "k"), .acquire (some "k"),
      .complete (.err 7)]).completions ∧
    (((lockRun [.acquire (some "k"), .acquire (some "k"),
        .complete (.err 7)]).starts.count 0 = 1 ∧
      ∀ a ∈ (lockRun [.acquire (some "k"), .acquire (some "k"),
        .complete (.err 7)]).arrivals, a.joined = 0 →
        (lockDrain [.acquire (some "k"), .acquire (some "k"),
          .complete (.err 7)]).promises a.pid = .settled (.err 7)) ∧
     (∀ e rest o k, (lockRun [.acquire (some "k"), .acquire (some "k"),
          .complete (.err 7)]).running = e :: rest → e.key = some k →
        lookupReg (lockStep (lockRun [.acquire (some "k"), .acquire (some "k"),
          .complete (.err 7)]) (.complete o)).regs k = none) ∧
     (∀ k, lookupReg (lockRun [.acquire (some "k"), .acquire (some "k"),
          .complete (.err 7)]).regs k = none →
        lookupReg (lockStep (lockRun [.acquire (some "k"), .acquire (some "k"),
          .complete (.err 7)]) (.acquire (some k))).regs k = some [] ∧
        ∃ e2 ∈ entries (lockStep (lockRun [.acquire (some "k"), .acquire (some "k"),
          .complete (.err 7)]) (.acquire (some k))),
          e2.key = some k ∧ e2.tid = (lockRun [.acquire (some "k"),
            .acquire (some "k"), .complete (.err 7)]).nextTid)) :=
  ⟨by decide, claim_lock_rejection_propagation _ 0 7 (by decide)⟩

/-- **C9.** The global chain is never poisoned by a failure: for any trace,
once enough completions are fed — whatever their outcomes, fulfillments or
rejections in any mix — every task that an `acquire` call scheduled (every
trigger arrival) has started.  This holds because each appended task is
installed as both the fulfillment and the rejection continuation of the
chain (`.then(cb, cb)`), which the model reflects by starting the next
entry on `complete` regardless of the outcome. -/
theorem claim_lock_chain_unpoisoned (es : List LEv) (os : List Outcome)
    (h : (lockRun es).running.length + (lockRun es).pending.length ≤ os.length) :
    ∀ t ∈ trigJoined (lockRun es),
      t ∈ (lockRun (es ++ os.map LEv.complete)).starts := by
  intro t ht
  have inv := lockInv_run es
  rw [lockRun_append]
  refine lock_progress_from os (lockRun es) inv h t ?_
  rw [← inv.trigOrder]
  exact ht

/-- Witness for C9: three acquires (the first rejecting, one keyed) all
start once three completions of any mix of outcomes are fed. -/
theorem claim_lock_chain_unpoisoned_witness :
    ((lockRun [.acquire none, .acquire (some "k"), .acquire none]).running.length +
      (lockRun [.acquire none, .acquire (some "k"),
        .acquire none]).pending.length ≤
      ([.err 1, .err 2, .ok 3] : List Outcome).length) ∧
    ∀ t ∈ trigJoined (lockRun [.acquire none, .acquire (some "k"), .acquire none]),
      t ∈ (lockRun ([.acquire none, .acquire (some "k"), .acquire none] ++
        ([.err 1, .err 2, .ok 3] : List Outcome).map LEv.complete)).starts :=
  ⟨by decide, claim_lock_chain_unpoisoned _ _ (by decide)⟩

/-! ### Claim theorems for `createThrottledAsyncFn` -/

/-- **C3 counterexample.**  The claim says a call arriving while a run is in
flight returns a shared promise that settles with the outcome of the *next*
execution — run with the latest stored arguments once the in-flight run
settles — and not with the in-flight run's outcome.  In the run
`call 10; call 20; complete (err 7)` the second caller receives the shared
promise (id 1), but when the in-flight run rejects, only one execution ever
happens (no run with the stored arguments 20 is started) and the shared
promise is rejected with the in-flight run's own reason `err 7`.  This
refutes the claim at this concrete input. -/
theorem claim_throttler_next_outcome_cex :
    (thrRun [.call 10, .call 20, .complete (.err 7)]).execs = [(0, 10)] ∧
    thrLastCallPid (thrRun [.call 10, .call 20, .complete (.err 7)]) = some 1 ∧
    (thrRun [.call 10, .call 20, .complete (.err 7)]).promises 1 =
      .settled (.err 7) ∧
    (thrRun [.call 10, .call 20, .complete (.err 7)]).state = .idle := by
  refine ⟨?_, ?_, ?_, ?_⟩ <;> decide

theorem thrStep_call_idle (s : ThrSt) (a : Nat) (h : s.state = .idle) :
    thrStep s (.call a) =
      { s with state := .running, queuedArgs := some a, runPid := some s.nextPid,
               nextPid := s.nextPid + 1, execs := s.execs ++ [(s.nextPid, a)],
               calls := s.calls ++ [(a, s.nextPid)] } := by
  simp [thrStep, h]

theorem thrStep_call_running (s : ThrSt) (a : Nat) (h : s.state = .running) :
    thrStep s (.call a) =
      { s with state := .queued, queuedArgs := some a, queuedPid := some s.nextPid,
               nextPid := s.nextPid + 1, calls := s.calls ++ [(a, s.nextPid)] } := by
  simp [thrStep, h]

theorem thrStep_call_queued (s : ThrSt) (a : Nat) (h : s.state = .queued) :
    thrStep s (.call a) =
      { s with queuedArgs := some a,
               calls := s.calls ++ [(a, s.queuedPid.getD 0)] } := by
  simp [thrStep, h]

theorem thrStep_complete_queued_ok (s : ThrSt) (rp v : Nat)
    (hq : s.state = .queued) (hrp : s.runPid = some rp) :
    thrStep s (.complete (.ok v)) =
      { s with state := .running,
               queuedArgs := some (s.queuedArgs.getD 0), queuedPid := none,
               runPid := some s.nextPid, nextPid := s.nextPid + 1,
               promises := settleAll (settleP s.promises rp (.ok v))
                 (s.links.filterMap (fun l => if l.1 = rp then some l.2 else none))
                 (.ok v),
               links := (s.links.filter (fun l => decide (l.1 ≠ rp))) ++
                 [(s.nextPid, s.queuedPid.getD 0)],
               execs := s.execs ++ [(s.nextPid, s.queuedArgs.getD 0)] } := by
  simp [thrStep, hq, hrp]

theorem thrStep_complete_queued_err (s : ThrSt) (rp r : Nat)
    (hq : s.state = .queued) (hrp : s.runPid = some rp) :
    thrStep s (.complete (.err r)) =
      { s with state := .idle, queuedArgs := none, queuedPid := none,
               runPid := none,
               promises := settleP (settleAll (settleP s.promises rp (.err r))
                 (s.links.filterMap (fun l => if l.1 = rp then some l.2 else none))
                 (.err r)) (s.queuedPid.getD 0) (.err r),
               links := s.links.filter (fun l => decide (l.1 ≠ rp)) } := by
  simp [thrStep, hq, hrp]

/-- **C3 (amended).**  A call arriving in the `Idle` state starts the
function immediately and returns that exact run's promise.  A call
arriving while `Running` stores its arguments and returns a fresh shared
promise; further calls in the same window overwrite the stored arguments
("last writer wins") and return the *same* shared promise, starting no
execution.  When the in-flight run *fulfills* with a run queued, exactly
one new execution starts with the latest stored arguments, and its run
promise is chained into the shared promise, which therefore settles with
the next execution's outcome.  When the in-flight run *rejects* with a run
queued, no new execution starts and the shared promise is rejected with
the in-flight run's reason (the error-path carve-out forced by the
counterexample).  In particular a burst `A, B, C` during one run yields
exactly two executions, with `A` and with `C`, and the two later callers
share one promise equal to the `C`-run's result. -/
theorem claim_throttler_amended :
    (∀ (s : ThrSt) (a : Nat), s.state = .idle →
        (thrStep s (.call a)).execs = s.execs ++ [(s.nextPid, a)] ∧
        (thrStep s (.call a)).calls = s.calls ++ [(a, s.nextPid)] ∧
        (thrStep s (.call a)).runPid = some s.nextPid) ∧
    (∀ (s : ThrSt) (a b : Nat), s.state = .running →
        thrLastCallPid (thrStep s (.call a)) = some s.nextPid ∧
        thrLastCallPid (thrStep (thrStep s (.call a)) (.call b)) = some s.nextPid ∧
        (thrStep (thrStep s (.call a)) (.call b)).queuedArgs = some b ∧
        (thrStep (thrStep s (.call a)) (.call b)).execs = s.execs) ∧
    (∀ (s : ThrSt) (rp v : Nat), s.state = .queued → s.runPid = some rp →
        (thrStep s (.complete (.ok v))).execs =
          s.execs ++ [(s.nextPid, s.queuedArgs.getD 0)] ∧
        (s.nextPid, s.queuedPid.getD 0) ∈ (thrStep s (.complete (.ok v))).links) ∧
    (∀ (s : ThrSt) (rp q r : Nat), s.state = .queued → s.runPid = some rp →
        s.queuedPid = some q → q ≠ rp → s.promises q = .pending →
        (∀ l ∈ s.links, l.1 ≠ rp) →
        (thrStep s (.complete (.err r))).execs = s.execs ∧
        (thrStep s (.complete (.err r))).promises q = .settled (.err r) ∧
        (thrStep s (.complete (.err r))).state = .idle) ∧
    (∀ A B C v1 v2 : Nat,
        (thrRun [.call A, .call B, .call C, .complete (.ok v1),
          .complete (.ok v2)]).execs = [(0, A), (2, C)] ∧
        (thrRun [.call A, .call B, .call C, .complete (.ok v1),
          .complete (.ok v2)]).calls = [(A, 0), (B, 1), (C, 1)] ∧
        (thrRun [.call A, .call B, .call C, .complete (.ok v1),
          .complete (.ok v2)]).promises 1 = .settled (.ok v2) ∧
        (thrRun [.call A, .call B, .call C, .complete (.ok v1),
          .complete (.ok v2)]).promises 2 = .settled (.ok v2)) := by
  refine ⟨?_, ?_, ?_, ?_, ?_⟩
  · intro s a h
    rw [thrStep_call_idle s a h]
    exact ⟨rfl, rfl, rfl⟩
  · intro s a b h
    rw [thrStep_call_running s a h, thrStep_call_queued _ b rfl]
    refine ⟨?_, ?_, rfl, rfl⟩
    · show ((s.calls ++ [(a, s.nextPid)]).getLast?).map Prod.snd = some s.nextPid
      rw [List.getLast?_concat]
      rfl
    · show (((s.calls ++ [(a, s.nextPid)]) ++
        [(b, (some s.nextPid).getD 0)]).getLast?).map Prod.snd = some s.nextPid
      rw [List.getLast?_concat]
      rfl
  · intro s rp v hq hrp
    rw [thrStep_complete_queued_ok s rp v hq hrp]
    exact ⟨rfl, by simp⟩
  · intro s rp q r hq hrp hqp hne hpend hlinks
    rw [thrStep_complete_queued_err s rp r hq hrp]
    have hlinked : s.links.filterMap
        (fun l => if l.1 = rp then some l.2 else none) = [] := by
      rw [List.filterMap_eq_nil_iff]
      intro l hl
      simp [hlinks l hl]
    refine ⟨rfl, ?_, rfl⟩
    show settleP (settleAll (settleP s.promises rp (.err r)) _ (.err r))
      (s.queuedPid.getD 0) (.err r) q = .settled (.err r)
    rw [hlinked, settleAll_nil, hqp]
    simp only [Option.getD_some]
    have hqpend : settleP s.promises rp (.err r) q = .pending := by
      rw [settleP_ne _ _ _ _ hne]
      exact hpend
    exact settleP_eq _ _ _ hqpend
  · intro A B C v1 v2
    refine ⟨rfl, rfl, rfl, rfl⟩

/-- Witness for the amended C3: the idle-start conjunct applied at the
freshly constructed throttler and the burst conjunct at concrete
arguments and outcomes. -/
theorem claim_throttler_amended_witness :
    ((thrStep thrInit (.call 4)).execs = thrInit.execs ++ [(thrInit.nextPid, 4)] ∧
     (thrStep thrInit (.call 4)).calls = thrInit.calls ++ [(4, thrInit.nextPid)] ∧
     (thrStep thrInit (.call 4)).runPid = some thrInit.nextPid) ∧
    ((thrRun [.call 10, .call 20, .call 30, .complete (.ok 1),
        .complete (.ok 2)]).execs = [(0, 10), (2, 30)] ∧
     (thrRun [.call 10, .call 20, .call 30, .complete (.ok 1),
        .complete (.ok 2)]).calls = [(10, 0), (20, 1), (30, 1)] ∧
     (thrRun [.call 10, .call 20, .call 30, .complete (.ok 1),
        .complete (.ok 2)]).promises 1 = .settled (.ok 2) ∧
     (thrRun [.call 10, .call 20, .call 30, .complete (.ok 1),
        .complete (.ok 2)]).promises 2 = .settled (.ok 2)) :=
  ⟨claim_throttler_amended.1 thrInit 4 rfl,
   claim_throttler_amended.2.2.2.2 10 20 30 1 2⟩

/-! ### Claim theorems for the file system provider -/

theorem filterMap_if {α β : Type} (p : α → Bool) (f : α → β) (l : List α) :
    l.filterMap (fun x => if p x then some (f x) else none) = (l.filter p).map f := by
  induction l with
  | nil => rfl
  | cons x rest ih =>
    by_cases hx : p x
    · simp [List.filterMap_cons, List.filter_cons, hx, ih]
    · simp [List.filterMap_cons, List.filter_cons, hx, ih]

/-- **C6.** For every read: a diff-baseline resource whose baseline lookup
reports `ADDED` yields zero-length bytes; one reporting `NOT_MODIFIED`
yields exactly the result of the plain-revision read at the same revision
and path; for a plain-revision read, an accessor failure that is an
`Error` whose message contains `"No such path"` surfaces as
`FileSystemError.FileNotFound`, and any failure not matching that pattern
is propagated unchanged; and when no repository owns the path the read
fails `FileNotFound` without any accessor in play. -/
theorem claim_readFile_resolution (repo : Repo) (rev fsPath : String) :
    (repo.getDiffOriginal rev fsPath = .ok .added →
        readFileModel (some repo) (.diffOriginal rev) fsPath = .ok []) ∧
    (repo.getDiffOriginal rev fsPath = .ok .notModified →
        readFileModel (some repo) (.diffOriginal rev) fsPath =
          readFileModel (some repo) (.plain rev) fsPath) ∧
    (∀ msg, repo.readFile rev fsPath = .error (.error msg) →
        includesSub msg "No such path" = true →
        readFileModel (some repo) (.plain rev) fsPath = .error .fileNotFound) ∧
    (∀ e, repo.readFile rev fsPath = .error e → isNoSuchPathErr e = false →
        readFileModel (some repo) (.plain rev) fsPath = .error e) ∧
    (∀ params fsPath', readFileModel none params fsPath' = .error .fileNotFound) := by
  refine ⟨?_, ?_, ?_, ?_, ?_⟩
  · intro h
    simp [readFileModel, h]
  · intro h
    simp [readFileModel, h]
  · intro msg h hmsg
    simp [readFileModel, readAtMapped, h, isNoSuchPathErr, hmsg]
  · intro e h hnot
    simp [readFileModel, readAtMapped, h, hnot]
  · intro params fsPath'
    rfl

/-- Witness for C6: a concrete accessor exercising every branch — an
`ADDED` baseline, a `NOT_MODIFIED` baseline falling back to the plain
read, a rejection whose message contains `"No such path"` mapped to
`FileNotFound`, and a thrown non-`Error` value propagated unchanged. -/
theorem claim_readFile_resolution_witness :
    (readFileModel (some (Repo.mk
        (fun r _ => if r = "a" then .ok .added
          else if r = "n" then .ok .notModified else .ok (.content [9]))
        (fun r _ => if r = "x" then .error (.error "jj: No such path hunk")
          else if r = "y" then .error (.nonError 3) else .ok [7])))
      (.diffOriginal "a") "f" = .ok []) ∧
    (readFileModel (some (Repo.mk
        (fun r _ => if r = "a" then .ok .added
          else if r = "n" then .ok .notModified else .ok (.content [9]))
        (fun r _ => if r = "x" then .error (.error "jj: No such path hunk")
          else if r = "y" then .error (.nonError 3) else .ok [7])))
      (.diffOriginal "n") "f" =
     readFileModel (some (Repo.mk
        (fun r _ => if r = "a" then .ok .added
          else if r = "n" then .ok .notModified else .ok (.content [9]))
        (fun r _ => if r = "x" then .error (.error "jj: No such path hunk")
          else if r = "y" then .error (.nonError 3) else .ok [7])))
      (.plain "n") "f") ∧
    (readFileModel (some (Repo.mk
        (fun r _ => if r = "a" then .ok .added
          else if r = "n" then .ok .notModified else .ok (.content [9]))
        (fun r _ => if r = "x" then .error (.error "jj: No such path hunk")
          else if r = "y" then .error (.nonError 3) else .ok [7])))
      (.plain "x") "f" = .error .fileNotFound) ∧
    (readFileModel (some (Repo.mk
        (fun r _ => if r = "a" then .ok .added
          else if r = "n" then .ok .notModified else .ok (.content [9]))
        (fun r _ => if r = "x" then .error (.error "jj: No such path hunk")
          else if r = "y" then .error (.nonError 3) else .ok [7])))
      (.plain "y") "f" = .error (.nonError 3)) ∧
    (readFileModel none (.plain "z") "g" = .error .fileNotFound) := by
  refine ⟨?_, ?_, ?_, ?_, ?_⟩
  · exact (claim_readFile_resolution _ "a" "f").1 rfl
  · exact (claim_readFile_resolution _ "n" "f").2.1 rfl
  · exact (claim_readFile_resolution _ "x" "f").2.2.1 "jj: No such path hunk"
      rfl (by decide)
  · exact (claim_readFile_resolution _ "y" "f").2.2.2.1 (.nonError 3)
      rfl (by decide)
  · exact (claim_readFile_resolution (Repo.mk (fun _ _ => .ok .added)
      (fun _ _ => .ok [])) "z" "g").2.2.2.2 (.plain "z") "g"

/-- **C7.** A sweep at time `now` retains a non-pinned cache row exactly
when its age is under the 180 000 ms TTL (so an entry of age 301 s is
evicted and one of age 179 s retained — see the witness), retains a pinned
row (its path open in a `file`-scheme document) regardless of age, and a
cleanup pass emits no deletion event. -/
theorem claim_cache_ttl_eviction (ci : Bool) (docs : List Doc) (now : Int)
    (rows : List CacheRow) (row : CacheRow) (hrow : row ∈ rows) :
    (isOpenDoc ci docs row.fsPath = false →
      (row ∈ (cleanup ci docs now rows).1 ↔ now - row.timestamp < THREE_MINUTES)) ∧
    (isOpenDoc ci docs row.fsPath = true → row ∈ (cleanup ci docs now rows).1) ∧
    (cleanup ci docs now rows).2 = [] := by
  refine ⟨?_, ?_, rfl⟩
  · intro hopen
    constructor
    · intro hmem
      have := List.mem_filter.mp hmem
      have h2 := this.2
      rw [hopen] at h2
      simpa using h2
    · intro hage
      refine List.mem_filter.mpr ⟨hrow, ?_⟩
      simp [hopen, hage]
  · intro hopen
    refine List.mem_filter.mpr ⟨hrow, ?_⟩
    simp [hopen]

/-- Witness for C7: with the TTL of 180 s, a row last touched at time 0 is
evicted by a sweep at 301 s, retained by a sweep at 179 s, and a pinned
row (its path open) is retained even at age 10⁶ s; cleanup emits no
events. -/
theorem claim_cache_ttl_eviction_witness :
    (CacheRow.mk "u" ['a'] 0 ∉
      (cleanup false [] 301000 [CacheRow.mk "u" ['a'] 0]).1) ∧
    (CacheRow.mk "u" ['a'] 0 ∈
      (cleanup false [] 179000 [CacheRow.mk "u" ['a'] 0]).1) ∧
    (CacheRow.mk "u" ['a'] 0 ∈
      (cleanup false [Doc.mk "file" ['a']] 1000000000
        [CacheRow.mk "u" ['a'] 0]).1) ∧
    (cleanup false [] 301000 [CacheRow.mk "u" ['a'] 0]).2 = [] := by
  refine ⟨?_, ?_, ?_, ?_⟩
  · intro hmem
    have h := ((claim_cache_ttl_eviction false [] 301000 [CacheRow.mk "u" ['a'] 0]
      (CacheRow.mk "u" ['a'] 0) (by decide)).1 (by decide)).mp hmem
    exact absurd h (by decide)
  · exact ((claim_cache_ttl_eviction false [] 179000 [CacheRow.mk "u" ['a'] 0]
      (CacheRow.mk "u" ['a'] 0) (by decide)).1 (by decide)).mpr (by decide)
  · exact (claim_cache_ttl_eviction false [Doc.mk "file" ['a']] 1000000000
      [CacheRow.mk "u" ['a'] 0] (CacheRow.mk "u" ['a'] 0) (by decide)).2.1 (by decide)
  · exact (claim_cache_ttl_eviction false [] 301000 [CacheRow.mk "u" ['a'] 0]
      (CacheRow.mk "u" ['a'] 0) (by decide)).2.2

/-- **C8.** One execution of the change-notifier pass emits exactly one
`Changed` event per live cache row whose path descends from at least one
pending dirty root — the batch handed to the single `fire` call is
precisely the matching rows mapped to `Changed` events, in cache order;
when no row matches, nothing is fired and `mtime` is unchanged, otherwise
`mtime` advances to `now`; and the pending dirty-root set is empty after
the pass in either case. -/
theorem claim_change_notifier_pass (ci : Bool) (sep : Char) (now : Int)
    (s : FspState) :
    ((fireChangeEventsBody ci sep now s).1.changedRoots = []) ∧
    (∀ evs, (fireChangeEventsBody ci sep now s).2 = some evs →
        evs = (s.cache.filter (rowMatches ci sep s.changedRoots)).map
          (fun row => { type := .changed, uriKey := row.uriKey }) ∧
        evs ≠ [] ∧
        (fireChangeEventsBody ci sep now s).1.mtime = now) ∧
    ((fireChangeEventsBody ci sep now s).2 = none →
        (∀ row ∈ s.cache, rowMatches ci sep s.changedRoots row = false) ∧
        (fireChangeEventsBody ci sep now s).1.mtime = s.mtime) := by
  have hev : s.cache.filterMap (fun row =>
      if rowMatches ci sep s.changedRoots row then
        some ({ type := .changed, uriKey := row.uriKey } : FcEvent)
      else none) =
      (s.cache.filter (rowMatches ci sep s.changedRoots)).map
        (fun row => { type := .changed, uriKey := row.uriKey }) :=
    filterMap_if _ _ _
  by_cases hc : 0 < (s.cache.filterMap (fun row =>
      if rowMatches ci sep s.changedRoots row then
        some ({ type := .changed, uriKey := row.uriKey } : FcEvent)
      else none)).length
  · have hstep : fireChangeEventsBody ci sep now s =
        ({ cache := s.cache, changedRoots := [], mtime := now },
         some (s.cache.filterMap (fun row =>
           if rowMatches ci sep s.changedRoots row then
             some ({ type := .changed, uriKey := row.uriKey } : FcEvent)
           else none))) := by
      rw [fireChangeEventsBody, if_pos hc]
    rw [hstep]
    refine ⟨rfl, ?_, ?_⟩
    · intro evs hevs
      obtain rfl : _ = evs := by injection hevs
      refine ⟨hev, ?_, rfl⟩
      intro hnil
      rw [hnil] at hc
      simp at hc
    · intro h
      cases h
  · have hstep : fireChangeEventsBody ci sep now s =
        ({ cache := s.cache, changedRoots := [], mtime := s.mtime }, none) := by
      rw [fireChangeEventsBody, if_neg hc]
    rw [hstep]
    refine ⟨rfl, ?_, ?_⟩
    · intro evs hevs
      cases hevs
    · intro _
      refine ⟨?_, rfl⟩
      intro row hrow
      have hnil : s.cache.filterMap (fun row =>
          if rowMatches ci sep s.changedRoots row then
            some ({ type := .changed, uriKey := row.uriKey } : FcEvent)
          else none) = [] := by
        rcases hx : s.cache.filterMap (fun row =>
            if rowMatches ci sep s.changedRoots row then
              some ({ type := .changed, uriKey := row.uriKey } : FcEvent)
            else none) with _ | ⟨y, ys⟩
        · rfl
        · exfalso
          rw [hx] at hc
          simp at hc
      rw [hev] at hnil
      have := List.map_eq_nil_iff.mp hnil
      have hfilter := List.filter_eq_nil_iff.mp this
      by_contra hmatch
      exact hfilter row hrow (by simpa using hmatch)

/-- Witness for C8: a pass over a two-row cache with one dirty root fires
one batch containing exactly the matching row's event and stamps `mtime`;
the dirty set is cleared. -/
theorem claim_change_notifier_pass_witness :
    ((fireChangeEventsBody true '/' 42 (FspState.mk
        [CacheRow.mk "u1" "/repo/a.txt".toList 0,
         CacheRow.mk "u2" "/other/b.txt".toList 0]
        ["/repo".toList] 7)).1.changedRoots = []) ∧
    ((fireChangeEventsBody true '/' 42 (FspState.mk
        [CacheRow.mk "u1" "/repo/a.txt".toList 0,
         CacheRow.mk "u2" "/other/b.txt".toList 0]
        ["/repo".toList] 7)).2 = some [FcEvent.mk .changed "u1"] →
      ([FcEvent.mk .changed "u1"] : List FcEvent) =
        ((FspState.mk
          [CacheRow.mk "u1" "/repo/a.txt".toList 0,
           CacheRow.mk "u2" "/other/b.txt".toList 0]
          ["/repo".toList] 7).cache.filter
            (rowMatches true '/' ["/repo".toList])).map
          (fun row => { type := .changed, uriKey := row.uriKey }) ∧
      ([FcEvent.mk .changed "u1"] : List FcEvent) ≠ [] ∧
      (fireChangeEventsBody true '/' 42 (FspState.mk
        [CacheRow.mk "u1" "/repo/a.txt".toList 0,
         CacheRow.mk "u2" "/other/b.txt".toList 0]
        ["/repo".toList] 7)).1.mtime = 42) ∧
    ((fireChangeEventsBody true '/' 42 (FspState.mk
        [CacheRow.mk "u1" "/repo/a.txt".toList 0,
         CacheRow.mk "u2" "/other/b.txt".toList 0]
        ["/repo".toList] 7)).2 = some [FcEvent.mk .changed "u1"]) :=
  ⟨(claim_change_notifier_pass true '/' 42 _).1,
   (claim_change_notifier_pass true '/' 42 _).2.1 [FcEvent.mk .changed "u1"],
   by decide⟩

/-! ### Claim theorems for `isDescendant` -/

/-- **C10 counterexample.**  The claim says that on Windows/macOS a root
and a cached path differing only in letter case still match.  But the
equality short-circuit of `isDescendant` is exact (`===`), and the
normalized-prefix test appends a separator to the parent first, so
`isDescendant("/Foo", "/foo")` is `false` on a case-insensitive platform:
the two paths differ only in case yet do not match. -/
theorem claim_isDescendant_case_cex :
    isDescendant true '/' "/Foo".toList "/foo".toList = false := by
  decide

/-- **C10 (amended).**  A cached path exactly equal to a changed root is
treated as affected (`isDescendant(p, p)` is true for every platform and
separator); on Windows/macOS the prefix comparison lowercases both sides,
so a cached path that is a strict descendant of the root still matches
when the two differ in letter case; but the equality short-circuit is
case-sensitive, so a root and a cached path that are equal only up to
letter case (with no trailing separator) do not match. -/
theorem claim_isDescendant_amended :
    (∀ (ci : Bool) (sep : Char) (p : PathStr), isDescendant ci sep p p = true) ∧
    (∀ (sep : Char) (parent descendant : PathStr),
        List.isPrefixOf
          ((if parent.getLast? = some sep then parent else parent ++ [sep]).map
            Char.toLower)
          (descendant.map Char.toLower) = true →
        isDescendant true sep parent descendant = true) ∧
    (isDescendant true '/' "/FOO".toList "/foo/a.txt".toList = true) ∧
    (isDescendant true '/' "/Foo".toList "/foo".toList = false) := by
  refine ⟨?_, ?_, by decide, by decide⟩
  · intro ci sep p
    simp [isDescendant]
  · intro sep parent descendant h
    rw [isDescendant]
    by_cases heq : parent = descendant
    · rw [if_pos heq]
    · rw [if_neg heq]
      simpa [normalizePath] using h

/-- Witness for the amended C10: reflexivity at a concrete path on a
case-sensitive platform, and the case-insensitive strict-descendant match
via the lowercased prefix test. -/
theorem claim_isDescendant_amended_witness :
    (isDescendant false '/' "/a/b".toList "/a/b".toList = true) ∧
    (isDescendant true '/' "/Repo".toList "/repo/x.txt".toList = true) :=
  ⟨claim_isDescendant_amended.1 false '/' "/a/b".toList,
   claim_isDescendant_amended.2.1 '/' "/Repo".toList "/repo/x.txt".toList (by decide)⟩

end Jjk
